import Mathlib

/-!
# Verification of the static-conversations data pipeline

A shallow embedding, in Lean 4, of the core of the `convo` package:
the GitHub API client (`src/convo/api.py`: field filtering, the user /
issue / issue-comment caches, pull-request exclusion) and the comment
tree builder (`src/convo/__init__.py`: `CommentManager._parse_comments`,
`_process_replies`, `__parse_comment_body`).

JSON-like data is modelled by the inductive type `Value`; Python `dict`s
are modelled as insertion-ordered association lists with Python's
assignment semantics (`dictSet` replaces in place when the key exists,
appends otherwise).  Fallible Python code (subscripting that can raise
`KeyError` / `TypeError`) is modelled with `Option`.  Network I/O is
modelled by an oracle `Net : List String → Value` giving the JSON body
answered for a request path, and each state carries a `log` of the
request paths actually sent (one entry per `Session.send`).

Mutation of shared objects — relevant only to the deep-copy claim about
`_parse_comments` — is modelled separately by an explicit heap of
addressed objects (`Heap`, `HValue.hRef`).
-/

namespace Convo

/-! ## Python string primitives (structural, kernel-evaluable) -/

/-- `str.strip(chars)`-style stripping on a character list: drop the
longest prefix and suffix whose characters satisfy `p`. -/
def stripList (p : Char → Bool) (l : List Char) : List Char :=
  ((l.dropWhile p).reverse.dropWhile p).reverse

/-- Python `str.strip(chars)`: remove leading and trailing characters
that occur in `chars`. -/
def pyStrip (s : String) (chars : List Char) : String :=
  String.mk (stripList (fun c => decide (c ∈ chars)) s.data)

/-- The whitespace characters stripped by Python's bare `str.strip()`
(the forms that occur in this data: space, tab, newline, CR). -/
def isPyWs (c : Char) : Bool := c = ' ' || c = '\t' || c = '\n' || c = '\r'

/-- `s.replace("\r\n", "\n")` on a character list: left-to-right,
non-overlapping replacement of CRLF by LF. -/
def normCRLF : List Char → List Char
  | [] => []
  | '\r' :: '\n' :: rest => '\n' :: normCRLF rest
  | c :: rest => c :: normCRLF rest

/-- `s.replace("\r\n", "\n")` on strings, as used for body text. -/
def pyReplaceCRLF (s : String) : String := String.mk (normCRLF s.data)

/-! ## Python dicts as insertion-ordered association lists -/

/-- `d[k]` as an `Option` (a `KeyError` is `none`). -/
def dictGet {κ α : Type} [DecidableEq κ] : List (κ × α) → κ → Option α
  | [], _ => none
  | (k', v') :: rest, k => if k' = k then some v' else dictGet rest k

/-- `d[k] = v`: replace in place if the key is present (keeping its
position, as Python dicts do), otherwise append at the end. -/
def dictSet {κ α : Type} [DecidableEq κ] : List (κ × α) → κ → α → List (κ × α)
  | [], k, v => [(k, v)]
  | (k', v') :: rest, k, v =>
    if k' = k then (k, v) :: rest else (k', v') :: dictSet rest k v

/-- `del d[k]`: remove the entry for `k` (first occurrence). -/
def dictDel {κ α : Type} [DecidableEq κ] : List (κ × α) → κ → List (κ × α)
  | [], _ => []
  | (k', v') :: rest, k => if k' = k then rest else (k', v') :: dictDel rest k

/-- `d.update(e)`: assign every entry of `e` into `d`, in order. -/
def dictUpdate {κ α : Type} [DecidableEq κ]
    (d e : List (κ × α)) : List (κ × α) :=
  e.foldl (fun acc p => dictSet acc p.1 p.2) d

/-! ## JSON-like values -/

/-- A JSON value as returned by the GitHub API and manipulated by the
pipeline.  Objects are insertion-ordered association lists. -/
inductive Value where
  | vInt : Int → Value
  | vStr : String → Value
  | vBool : Bool → Value
  | vNull : Value
  | vList : List Value → Value
  | vObj : List (String × Value) → Value

/-- A JSON object (a Python dict with string keys). -/
abbrev Obj := List (String × Value)

/-! ## Front matter (external library, modelled)

`CommentManager.__parse_comment_body` calls `frontmatter.parse`, a
third-party library that is not part of this repository's sources. -/

/-- Split a character list on a separator character (like
`str.split(sep)`; always returns at least one piece). -/
def splitOnChar (sep : Char) : List Char → List (List Char)
  | [] => [[]]
  | c :: rest =>
    let r := splitOnChar sep rest
    if c = sep then [] :: r
    else
      match r with
      | [] => [[c]]
      | l :: ls => (c :: l) :: ls

/-- Join lines back with `'\n'`. -/
def joinLines : List (List Char) → List Char
  | [] => []
  | [l] => l
  | l :: ls => l ++ '\n' :: joinLines ls

/-- Split a line at its first `':'`, if any. -/
def splitFirstColon : List Char → Option (List Char × List Char)
  | [] => none
  | c :: rest =>
    if c = ':' then some ([], rest)
    else
      match splitFirstColon rest with
      | some (k, v) => some (c :: k, v)
      | none => none

/-- Parse one `key: value` metadata line; the key and the value are
trimmed of surrounding whitespace (YAML plain scalars). -/
def parseMetaLine (line : List Char) : Option (String × String) :=
  match splitFirstColon line with
  | some (k, v) => some (String.mk (stripList isPyWs k), String.mk (stripList isPyWs v))
  | none => none

/-- The `---` front-matter delimiter line. -/
def dash3 : List Char := ['-', '-', '-']

/-- Modelled from the spec: the external `frontmatter.parse` call
(§4.4 step 2: "Parse the issue `body` as front-matter-delimited text: a
metadata block (key/value) followed by free-form content", §6: "issue
bodies are front-matter-delimited text (a metadata block containing at
least `page`, followed by the comment's rendered content)").  The text
is stripped of surrounding whitespace; if it opens with a `---` line and
a closing `---` line follows, the lines between them are parsed as
`key: value` metadata and the remainder (again stripped) is the content;
otherwise the metadata is empty and the whole text is the content.
A body without front matter yields empty metadata, never an error. -/
def frontmatterParse (body : String) : (List (String × String)) × String :=
  let text := stripList isPyWs body.data
  match splitOnChar '\n' text with
  | [] => ([], String.mk text)
  | first :: rest =>
    if first = dash3 ∧ rest.contains dash3 then
      let metaLines := rest.takeWhile (fun l => l ≠ dash3)
      let after := (rest.dropWhile (fun l => l ≠ dash3)).drop 1
      (metaLines.filterMap parseMetaLine, String.mk (stripList isPyWs (joinLines after)))
    else ([], String.mk text)

/-! ## The Comment Tree Builder (`src/convo/__init__.py`) -/

/-- The page identifier derived from the front-matter `page` value:
`metadata["page"].strip("/ ")` (strip surrounding `/` and `' '`). -/
def page_identifier (pageVal : String) : String := pyStrip pageVal ['/', ' ']

/-- `CommentManager.__parse_comment_body`: parse the body's front
matter, take the required `page` metadata key (a missing key raises
`KeyError`, modelled as `none`), strip the page of surrounding `/` and
`' '` (Python `metadata["page"].strip("/ ")`), and normalize CRLF in the
content. -/
def parse_comment_body (body : String) : Option (String × String) :=
  let (metadata, content) := frontmatterParse body
  match dictGet metadata "page" with
  | some pageVal => some (page_identifier pageVal, pyReplaceCRLF content)
  | none => none

/-- The flat comment collection: Python dict keyed by comment id. -/
abbrev FlatMap := List (Int × Obj)

/-- The page index: Python dict from page identifier to root-id list. -/
abbrev PageIndex := List (String × List Int)

/-- `comment_mapping[page].append(i)`: append `i` to the list stored
under `page` (leaving the dict unchanged if `page` is absent). -/
def pageAppend (m : PageIndex) (page : String) (i : Int) : PageIndex :=
  m.map (fun p => if p.1 = page then (p.1, p.2 ++ [i]) else p)

/-- `CommentManager._process_replies`, one loop iteration at a time:
replace each reply's `user` object by its `login` value, normalize CRLF
in its `body` (which must be a string), set its `parent` to the parent
comment's id, and store it into the accumulator dict keyed by its own
`id` (which must be an integer).  Any failing subscript is `none`. -/
def process_replies_aux : List Value → Int → FlatMap → Option FlatMap
  | [], _, acc => some acc
  | v :: rest, parent, acc =>
    match v with
    | Value.vObj c =>
      match dictGet c "user" with
      | some (Value.vObj u) =>
        match dictGet u "login" with
        | some lg =>
          let c1 := dictSet c "user" lg
          match dictGet c1 "body" with
          | some (Value.vStr b) =>
            let c2 := dictSet c1 "body" (Value.vStr (pyReplaceCRLF b))
            let c3 := dictSet c2 "parent" (Value.vInt parent)
            match dictGet c "id" with
            | some (Value.vInt cid) =>
              process_replies_aux rest parent (dictSet acc cid c3)
            | _ => none
          | _ => none
        | none => none
      | _ => none
    | _ => none

/-- `CommentManager._process_replies(comments, parent_comment)`. -/
def process_replies (comments : List Value) (parent_comment : Int) : Option FlatMap :=
  process_replies_aux comments parent_comment []

/-- One iteration of the loop of `CommentManager._parse_comments`:
process a single issue record against the accumulated flat collection
and page index.  Mirrors the source line by line: replace `user` by its
`login`, parse the body (`page` / content), set `page`, `body` and
`parent = 0`, register the issue's `id` under its page in the mapping
(creating the page's list on first sight), pop `comments`, process the
replies with the issue's `id` as parent, set `replies` to the reply-id
list, then `processed.update(replies)` and `processed[issue["id"]] =
issue`. -/
def process_issue (flat : FlatMap) (mapping : PageIndex) (issue : Obj) :
    Option (FlatMap × PageIndex) :=
  match dictGet issue "user" with
  | some (Value.vObj u) =>
    match dictGet u "login" with
    | some lg =>
      let i1 := dictSet issue "user" lg
      match dictGet issue "body" with
      | some (Value.vStr b) =>
        match parse_comment_body b with
        | some (parent_page, body_text) =>
          let i2 := dictSet i1 "page" (Value.vStr parent_page)
          let i3 := dictSet i2 "body" (Value.vStr body_text)
          let i4 := dictSet i3 "parent" (Value.vInt 0)
          match dictGet issue "id" with
          | some (Value.vInt iid) =>
            let m1 := if (dictGet mapping parent_page).isSome then mapping
                      else dictSet mapping parent_page []
            let m2 := pageAppend m1 parent_page iid
            match dictGet issue "comments" with
            | some (Value.vList replies) =>
              let i5 := dictDel i4 "comments"
              match process_replies replies iid with
              | some rdict =>
                let i6 := dictSet i5 "replies"
                  (Value.vList ((rdict.map Prod.fst).map Value.vInt))
                some (dictSet (dictUpdate flat rdict) iid i6, m2)
              | none => none
            | _ => none
          | _ => none
        | none => none
      | _ => none
    | none => none
  | _ => none

/-- The loop of `CommentManager._parse_comments` over the issue list. -/
def parse_comments_aux : List Obj → FlatMap → PageIndex → Option (FlatMap × PageIndex)
  | [], flat, mapping => some (flat, mapping)
  | issue :: rest, flat, mapping =>
    match process_issue flat mapping issue with
    | some (flat', mapping') => parse_comments_aux rest flat' mapping'
    | none => none

/-- `CommentManager._parse_comments(comments)` on the issue records in
iteration order (the source turns the `dict` keyed by issue number into
`list(comments.values())` first; the `deepcopy` it starts with is the
identity on these pure values and is modelled explicitly, with object
identity, in the heap embedding below).  Starts from an empty
`processed` dict and an empty `comment_mapping`, returns
`(processed, comment_mapping)`. -/
def parse_comments (comments : List Obj) : Option (FlatMap × PageIndex) :=
  parse_comments_aux comments [] []

/-! ## Derived notions used by the claims about the builder -/

/-- The flat collection of a builder run (empty if the run failed). -/
def flatOf (r : Option (FlatMap × PageIndex)) : FlatMap :=
  match r with
  | some (f, _) => f
  | none => []

/-- The page index of a builder run (empty if the run failed). -/
def mapOf (r : Option (FlatMap × PageIndex)) : PageIndex :=
  match r with
  | some (_, m) => m
  | none => []

/-- The record stored under `k` in a flat collection (`[]` if absent). -/
def recAt (f : FlatMap) (k : Int) : Obj := (dictGet f k).getD []

/-- The `id` field of an issue record, when it is an integer. -/
def issueIdOf (issue : Obj) : Option Int :=
  match dictGet issue "id" with
  | some (Value.vInt n) => some n
  | _ => none

/-- The integer `id`s of the (well-formed) objects in a raw reply list. -/
def idsOfVals : List Value → List Int
  | [] => []
  | v :: rest =>
    match v with
    | Value.vObj c =>
      match dictGet c "id" with
      | some (Value.vInt n) => n :: idsOfVals rest
      | _ => idsOfVals rest
    | _ => idsOfVals rest

/-- The integer `id`s of the replies attached under an issue's
`comments` field. -/
def replyIdsOf (issue : Obj) : List Int :=
  match dictGet issue "comments" with
  | some (Value.vList l) => idsOfVals l
  | _ => []

/-- Every id occurring in an issue list: each issue's own `id` followed
by the `id`s of its replies, in iteration order. -/
def allIds : List Obj → List Int
  | [] => []
  | i :: rest => (issueIdOf i).toList ++ replyIdsOf i ++ allIds rest

/-- The parent/child integrity invariant of the flat collection (claim
C4): every record whose `parent` is a non-zero integer `p` points to a
record stored under key `p` that is a thread root (`parent = 0`) and
whose `replies` list contains the child's key. -/
def FlatInv (flat : FlatMap) : Prop :=
  ∀ k rec, dictGet flat k = some rec →
    ∀ p, dictGet rec "parent" = some (Value.vInt p) → p ≠ 0 →
      ∃ irec, dictGet flat p = some irec ∧
        dictGet irec "parent" = some (Value.vInt 0) ∧
        ∃ rl, dictGet irec "replies" = some (Value.vList rl) ∧ Value.vInt k ∈ rl

/-- The page trimming exactly as the spec's words state it: the value
"trimmed of leading/trailing `/` and whitespace" (whitespace taken to
include spaces, tabs and newlines).  Stated from the spec, for
comparison with `page_identifier`, which is taken from the source. -/
def spec_page_identifier (pageVal : String) : String :=
  String.mk (stripList (fun c => c = '/' || isPyWs c) pageVal.data)

/-! ## Concrete builder inputs used by the claims -/

/-- The C1 scenario issue as the spec writes it — issue number 42, with
the realistic situation that the GitHub global `id` field (4242 here)
differs from the issue `number` (42). -/
def c1IssueNum : Obj :=
  [("id", Value.vInt 4242), ("node_id", Value.vStr "I_kwDO1"), ("number", Value.vInt 42),
   ("title", Value.vStr "Comments: blog post 1"),
   ("user", Value.vObj [("login", Value.vStr "alice")]),
   ("body", Value.vStr "---\npage: /blog/post-1/\n---\nGreat post!"),
   ("comments", Value.vList [Value.vObj
     [("id", Value.vInt 900), ("node_id", Value.vStr "IC_kwDO9"),
      ("body", Value.vStr "Thanks!\r\n"),
      ("user", Value.vObj [("login", Value.vStr "bob")])]])]

/-- The C1 scenario issue in the case where the issue's `id` field is
42, so that the keys the spec predicts coincide with the code's. -/
def c1IssueId42 : Obj :=
  [("id", Value.vInt 42), ("node_id", Value.vStr "I_kwDO1"), ("number", Value.vInt 42),
   ("title", Value.vStr "Comments: blog post 1"),
   ("user", Value.vObj [("login", Value.vStr "alice")]),
   ("body", Value.vStr "---\npage: /blog/post-1/\n---\nGreat post!"),
   ("comments", Value.vList [Value.vObj
     [("id", Value.vInt 900), ("node_id", Value.vStr "IC_kwDO9"),
      ("body", Value.vStr "Thanks!\r\n"),
      ("user", Value.vObj [("login", Value.vStr "bob")])]])]

/-- Two issues that share the same `id` field (1): the first has a
reply (id 7), the second none.  Processing the second overwrites the
first one's record in the flat collection, orphaning reply 7. -/
def c4IssueA : Obj :=
  [("id", Value.vInt 1), ("node_id", Value.vStr "I_1"),
   ("user", Value.vObj [("login", Value.vStr "alice")]),
   ("body", Value.vStr "---\npage: /faq/\n---\nFirst"),
   ("comments", Value.vList [Value.vObj
     [("id", Value.vInt 7), ("node_id", Value.vStr "C_7"),
      ("body", Value.vStr "hi"),
      ("user", Value.vObj [("login", Value.vStr "bob")])]])]

/-- See `c4IssueA`: a second issue with the same `id` 1. -/
def c4IssueB : Obj :=
  [("id", Value.vInt 1), ("node_id", Value.vStr "I_2"),
   ("user", Value.vObj [("login", Value.vStr "alice")]),
   ("body", Value.vStr "---\npage: /faq/\n---\nSecond"),
   ("comments", Value.vList [])]

/-- A well-formed thread used as concrete witness input for the
parent/child integrity claim: issue id 43 with two replies. -/
def c4WitnessIssue : Obj :=
  [("id", Value.vInt 43), ("node_id", Value.vStr "I_43"),
   ("user", Value.vObj [("login", Value.vStr "alice")]),
   ("body", Value.vStr "---\npage: /about/\n---\nHello"),
   ("comments", Value.vList
     [Value.vObj
       [("id", Value.vInt 901), ("node_id", Value.vStr "C_901"),
        ("body", Value.vStr "first\r\nreply"),
        ("user", Value.vObj [("login", Value.vStr "bob")])],
      Value.vObj
       [("id", Value.vInt 902), ("node_id", Value.vStr "C_902"),
        ("body", Value.vStr "second"),
        ("user", Value.vObj [("login", Value.vStr "carol")])]])]

/-- An issue whose body has no parsable front matter at all, so the
metadata lacks the required `page` key. -/
def c6Issue : Obj :=
  [("id", Value.vInt 5), ("node_id", Value.vStr "I_5"),
   ("user", Value.vObj [("login", Value.vStr "alice")]),
   ("body", Value.vStr "just a plain body with no front matter"),
   ("comments", Value.vList [])]

/-! ## The API client (`src/convo/api.py`) -/

/-- `GitHubAPI.UNIVERSAL_KEYS`: keys never filtered out of returned
objects (a Python set; only membership matters). -/
def UNIVERSAL_KEYS : List String :=
  ["id", "node_id", "html_url", "user", "created_at", "updated_at"]

/-- The allow-list of `GitHubAPI._filter_user`. -/
def USER_FILTER_KEYS : List String := ["login", "avatar_url", "name", "bio"]

/-- The allow-list of `GitHubAPI._filter_issues`. -/
def ISSUE_FILTER_KEYS : List String :=
  ["number", "title", "body", "labels", "locked", "active_lock_reason"]

/-- The allow-list of `GitHubAPI._filter_issue_comments`. -/
def COMMENT_FILTER_KEYS : List String := ["body", "user", "author_association"]

/-- A key of the `GitHubAPI.issue_comments` dict.  The dict is
heterogeneous in the source: entries are stored under the tuple
`(issue_number, comment_id)`, while `get_issue_comments` looks up the
bare `issue_number` — an `int` never equals a tuple, exactly as
`CKey.num n ≠ CKey.pair n c` here. -/
inductive CKey where
  | num : Int → CKey
  | pair : Int → Int → CKey
deriving DecidableEq

/-- The mutable state of a `GitHubAPI` instance: the four caches
(`nodes`, `users`, `issues`, `issue_comments`) plus `log`, the sequence
of request paths sent over the network so far (`log` models the
observable I/O of `Session.send`; it is how "performs a network
request" is stated). -/
structure ApiState where
  nodes : List (String × Obj)
  users : List (String × Obj)
  issues : List (Int × Obj)
  issue_comments : List (CKey × Obj)
  log : List (List String)

/-- The network oracle: the parsed JSON answered for a request path.
(`GitHubAPI.get_resource` joins the path segments and sends a GET;
transport and auth details do not affect any claim here.) -/
abbrev Net := List String → Value

/-- A fresh `GitHubAPI` instance: all caches empty, nothing sent. -/
def emptyState : ApiState := ⟨[], [], [], [], []⟩

/-- `GitHubAPI.get_resource`: send a GET request for `path` (recording
it in the log) and return the response JSON. -/
def get_resource (net : Net) (st : ApiState) (path : List String) : ApiState × Value :=
  ({ st with log := st.log ++ [path] }, net path)

/-- The dict comprehension inside `GitHubAPI._filter_fields`: keep the
key-value pairs whose key is in `UNIVERSAL_KEYS | filter_keys`. -/
def keepKeys (resp : Obj) (filter_keys : List String) : Obj :=
  resp.filter (fun p => decide (p.1 ∈ UNIVERSAL_KEYS ∨ p.1 ∈ filter_keys))

mutual

/-- `GitHubAPI._filter_fields(resp, filter_keys)`: filter the object's
keys, then, if a `user` key survived, replace its value (an embedded
user object, whose `login` is read) by the canonical record from
`get_user`.  The `fuel` argument bounds the recursion depth
(`_filter_fields` and `get_user` call each other in the source); `none`
also covers Python's `KeyError`/`TypeError` on the subscripts. -/
def filter_fields (net : Net) :
    Nat → ApiState → Obj → List String → Option (ApiState × Obj)
  | 0, _, _, _ => none
  | fuel + 1, st, resp, filter_keys =>
    let filtered := keepKeys resp filter_keys
    match dictGet filtered "user" with
    | none => some (st, filtered)
    | some (Value.vObj u) =>
      match dictGet u "login" with
      | some (Value.vStr login) =>
        match get_user net fuel st login with
        | some (st', user) => some (st', dictSet filtered "user" (Value.vObj user))
        | none => none
      | _ => none
    | some _ => none

/-- `GitHubAPI.get_user(username)`: a username present in the `users`
cache is returned at once (no request); otherwise `GET /users/{username}`
is sent, the response filtered with `_filter_user`'s allow-list
(`USER_FILTER_KEYS`, inlined here), and the record stored into `nodes`
under its `node_id` and into `users` under its own `login` field —
which is the response's login, not necessarily the `username`
argument. -/
def get_user (net : Net) : Nat → ApiState → String → Option (ApiState × Obj)
  | 0, _, _ => none
  | fuel + 1, st, username =>
    match dictGet st.users username with
    | some u => some (st, u)
    | none =>
      let (st1, resp) := get_resource net st ["users", username]
      match resp with
      | Value.vObj o =>
        match filter_fields net fuel st1 o USER_FILTER_KEYS with
        | some (st2, user) =>
          match dictGet user "node_id", dictGet user "login" with
          | some (Value.vStr nid), some (Value.vStr login) =>
            some ({ st2 with nodes := dictSet st2.nodes nid user,
                             users := dictSet st2.users login user }, user)
          | _, _ => none
        | none => none
      | _ => none

end

/-- `GitHubAPI._filter_issue_comments(resp)`: filter each raw comment
object with the comments allow-list, in response order. -/
def filter_issue_comments (net : Net) (fuel : Nat) :
    ApiState → List Value → Option (ApiState × List Obj)
  | st, [] => some (st, [])
  | st, v :: rest =>
    match v with
    | Value.vObj o =>
      match filter_fields net fuel st o COMMENT_FILTER_KEYS with
      | some (st1, c) =>
        match filter_issue_comments net fuel st1 rest with
        | some (st2, cs) => some (st2, c :: cs)
        | none => none
      | none => none
    | _ => none

/-- The storing loop of `GitHubAPI.get_issue_comments`: each filtered
comment goes into `nodes` under its `node_id` and into `issue_comments`
under the tuple `(issue_number, comment_id)`, and is appended to the
returned list. -/
def store_comments : ApiState → Int → List Obj → Option (ApiState × List Obj)
  | st, _, [] => some (st, [])
  | st, n, c :: rest =>
    match dictGet c "node_id", dictGet c "id" with
    | some (Value.vStr nid), some (Value.vInt cid) =>
      let st1 := { st with
        nodes := dictSet st.nodes nid c,
        issue_comments := dictSet st.issue_comments (CKey.pair n cid) c }
      match store_comments st1 n rest with
      | some (st2, cs) => some (st2, c :: cs)
      | none => none
    | _, _ => none

/-- `GitHubAPI.get_issue_comments(issue_number)`: the source first
checks `if issue_number in self.issue_comments` — a bare-number key
(`CKey.num`), which can never equal the tuple keys (`CKey.pair`) the
dict is populated with; on that (dead) hit branch it would return the
single stored record (`Value.vObj`), not a list.  On a miss it sends
`GET /repos/{repo}/issues/{issue_number}/comments`, filters each
comment, stores them, and returns the list. -/
def get_issue_comments (net : Net) (repo : String) (fuel : Nat)
    (st : ApiState) (issue_number : Int) : Option (ApiState × Value) :=
  match dictGet st.issue_comments (CKey.num issue_number) with
  | some o => some (st, Value.vObj o)
  | none =>
    let (st1, resp) := get_resource net st
      ["repos", repo, "issues", toString issue_number, "comments"]
    match resp with
    | Value.vList raws =>
      match filter_issue_comments net fuel st1 raws with
      | some (st2, cs) =>
        match store_comments st2 issue_number cs with
        | some (st3, cs') => some (st3, Value.vList (cs'.map Value.vObj))
        | none => none
      | none => none
    | _ => none

/-- `GitHubAPI._filter_issues(resp)`: drop every raw object that
carries a `pull_request` key (the issues endpoint conflates issues and
pull requests); filter the rest with the issues allow-list. -/
def filter_issues (net : Net) (fuel : Nat) :
    ApiState → List Value → Option (ApiState × List Obj)
  | st, [] => some (st, [])
  | st, v :: rest =>
    match v with
    | Value.vObj o =>
      if (dictGet o "pull_request").isSome then filter_issues net fuel st rest
      else
        match filter_fields net fuel st o ISSUE_FILTER_KEYS with
        | some (st1, i) =>
          match filter_issues net fuel st1 rest with
          | some (st2, iss) => some (st2, i :: iss)
          | none => none
        | none => none
    | _ => none

/-- The loop of `GitHubAPI.get_issues`: store each filtered issue into
`nodes` (by `node_id`) and `issues` (by `number`), then eagerly fetch
its comments and attach them under the record's `comments` field.  In
the source the attachment mutates the object already stored in the
caches; here the (immutable) caches are re-assigned with the extended
record, which yields the same final state by the same keys. -/
def attach_comments (net : Net) (repo : String) (fuel : Nat) :
    ApiState → List Obj → Option ApiState
  | st, [] => some st
  | st, i :: rest =>
    match dictGet i "node_id", dictGet i "number" with
    | some (Value.vStr nid), some (Value.vInt num) =>
      let st1 := { st with nodes := dictSet st.nodes nid i,
                           issues := dictSet st.issues num i }
      match get_issue_comments net repo fuel st1 num with
      | some (st2, cval) =>
        let iWith := dictSet i "comments" cval
        let st3 := { st2 with nodes := dictSet st2.nodes nid iWith,
                              issues := dictSet st2.issues num iWith }
        attach_comments net repo fuel st3 rest
      | none => none
    | _, _ => none

/-- `GitHubAPI.get_issues()`: `GET /repos/{repo}/issues`, filter out
pull requests and other keys, store and hydrate every remaining issue,
and return the `issues` cache. -/
def get_issues (net : Net) (repo : String) (fuel : Nat) (st : ApiState) :
    Option (ApiState × List (Int × Obj)) :=
  let (st1, resp) := get_resource net st ["repos", repo, "issues"]
  match resp with
  | Value.vList raws =>
    match filter_issues net fuel st1 raws with
    | some (st2, objs) =>
      match attach_comments net repo fuel st2 objs with
      | some st3 => some (st3, st3.issues)
      | none => none
    | none => none
  | _ => none

/-- `not_pull_request`: the raw issue-endpoint entries that survive
`_filter_issues`' skip test (objects without a `pull_request` key;
non-objects are type errors either way). -/
def notPullRequest : Value → Bool
  | Value.vObj o => !(dictGet o "pull_request").isSome
  | _ => true

/-! ## Concrete API-client inputs used by the claims -/

/-- State component of an API call result (`emptyState` on failure). -/
def apiStateOf (r : Option (ApiState × Value)) : ApiState :=
  match r with
  | some (s, _) => s
  | none => emptyState

/-- Value component of an API call result (`vNull` on failure). -/
def apiValueOf (r : Option (ApiState × Value)) : Value :=
  match r with
  | some (_, v) => v
  | none => Value.vNull

/-- State component of a `get_user` result (`emptyState` on failure). -/
def userStateOf (r : Option (ApiState × Obj)) : ApiState :=
  match r with
  | some (s, _) => s
  | none => emptyState

/-- A raw issue comment as the comments endpoint returns it. -/
def c2Comment : Obj :=
  [("id", Value.vInt 900), ("node_id", Value.vStr "IC_900"),
   ("body", Value.vStr "hi"), ("author_association", Value.vStr "NONE")]

/-- A network in which issue 5 of `owner/site` has one comment. -/
def c2Net : Net := fun path =>
  if path = ["repos", "owner/site", "issues", "5", "comments"] then
    Value.vList [Value.vObj c2Comment]
  else Value.vNull

/-- First `get_issue_comments(5)` call on a fresh instance. -/
def c2Run1 : Option (ApiState × Value) :=
  get_issue_comments c2Net "owner/site" 3 emptyState 5

def c2State1 : ApiState := apiStateOf c2Run1

/-- Second `get_issue_comments(5)` call, after the first completed. -/
def c2Run2 : Option (ApiState × Value) :=
  get_issue_comments c2Net "owner/site" 3 c2State1 5

def c2State2 : ApiState := apiStateOf c2Run2

/-- A raw `/users/alice` response whose `login` equals the requested
username (the canonical case); `followers` is not in any allow-list. -/
def aliceRespObj : Obj :=
  [("login", Value.vStr "alice"), ("id", Value.vInt 501),
   ("node_id", Value.vStr "U_alice"),
   ("avatar_url", Value.vStr "https://avatars.example/alice"),
   ("bio", Value.vStr "hello"), ("followers", Value.vInt 3)]

/-- A network knowing only the user `alice`. -/
def aliceNet : Net := fun path =>
  if path = ["users", "alice"] then Value.vObj aliceRespObj else Value.vNull

/-- The cached record `get_user` builds for `alice`. -/
def aliceRec : Obj := keepKeys aliceRespObj USER_FILTER_KEYS

/-- The API state after the first `get_user("alice")` call. -/
def aliceState1 : ApiState :=
  { emptyState with log := emptyState.log ++ [["users", "alice"]],
                    nodes := dictSet emptyState.nodes "U_alice" aliceRec,
                    users := dictSet emptyState.users "alice" aliceRec }

/-- A raw `/users/bob` response whose canonical `login` is `"Bob"` —
differing in case from the requested username `"bob"`. -/
def bobRespObj : Obj :=
  [("login", Value.vStr "Bob"), ("id", Value.vInt 502),
   ("node_id", Value.vStr "U_Bob"), ("name", Value.vStr "Bob B.")]

/-- A network answering `/users/bob` with the canonical login `Bob`. -/
def bobNet : Net := fun path =>
  if path = ["users", "bob"] then Value.vObj bobRespObj else Value.vNull

/-- The cached record `get_user` builds from `bobRespObj`. -/
def bobRec : Obj := keepKeys bobRespObj USER_FILTER_KEYS

/-- First `get_user("bob")` call on a fresh instance. -/
def bobRun1 : Option (ApiState × Obj) := get_user bobNet 3 emptyState "bob"

def bobState1 : ApiState := userStateOf bobRun1

/-- Second `get_user("bob")` call, after the first completed. -/
def bobRun2 : Option (ApiState × Obj) := get_user bobNet 3 bobState1 "bob"

def bobState2 : ApiState := userStateOf bobRun2

/-- A raw comment object with keys inside and outside the allow-list
(and no `user` key), for exercising `_filter_fields`. -/
def c7Obj : Obj :=
  [("id", Value.vInt 9), ("node_id", Value.vStr "N9"),
   ("body", Value.vStr "text"), ("junk", Value.vStr "x"),
   ("author_association", Value.vStr "NONE"),
   ("reactions", Value.vObj [])]

/-- A network that is never consulted. -/
def nullNet : Net := fun _ => Value.vNull

/-- The record `_filter_fields` produces from `c7Obj`. -/
def c7Out : Obj := keepKeys c7Obj COMMENT_FILTER_KEYS

/-! ## The heap embedding (object identity and mutation)

`CommentManager._parse_comments` starts with
`comments = deepcopy(comments)` and then mutates the (copied) issue and
reply dicts in place.  To state that the caller's records are *not*
mutated, objects get explicit addresses: a `Heap` maps addresses to
objects, and `HValue.hRef` is a reference.  The builder is re-expressed
against the heap with the very same per-step operations as above. -/

/-- A JSON-like value whose object positions are heap references. -/
inductive HValue where
  | hInt : Int → HValue
  | hStr : String → HValue
  | hBool : Bool → HValue
  | hNull : HValue
  | hList : List HValue → HValue
  | hRef : Nat → HValue

/-- A heap object: field name to value. -/
abbrev HObj := List (String × HValue)

/-- The heap: address to object (a Python id-to-object store). -/
abbrev Heap := List (Nat × HObj)

/-- The addresses referenced inside a value. -/
def refsIn : HValue → List Nat
  | HValue.hRef a => [a]
  | HValue.hList [] => []
  | HValue.hList (v :: rest) => refsIn v ++ refsIn (HValue.hList rest)
  | _ => []

/-- The addresses referenced by an object's field values. -/
def refsInObj : HObj → List Nat
  | [] => []
  | (_, v) :: rest => refsIn v ++ refsInObj rest

mutual

/-- Modelled from the spec: Python's `copy.deepcopy` on a value
(§4.4: the builder "operates on a deep copy so the API Client's cached
originals are never mutated").  Atoms are returned as they are; a
reference is resolved, the object's fields copied recursively, and the
copy allocated at the next fresh address `n`.  `fuel` bounds the
recursion (the data is an acyclic object graph); the memoisation Python
uses for shared sub-objects is not modelled — it only affects sharing
*inside* the copy, not which original objects are touched. -/
def deepcopyVal : Nat → Heap → Nat → HValue → Option (Heap × Nat × HValue)
  | 0, _, _, _ => none
  | fuel + 1, h, n, v =>
    match v with
    | HValue.hList l =>
      match deepcopyList fuel h n l with
      | some (h', n', l') => some (h', n', HValue.hList l')
      | none => none
    | HValue.hRef a =>
      match dictGet h a with
      | some o =>
        match deepcopyObj fuel h n o with
        | some (h', n', o') => some (h' ++ [(n', o')], n' + 1, HValue.hRef n')
        | none => none
      | none => none
    | atom => some (h, n, atom)

/-- `deepcopyVal` over the elements of a list, left to right. -/
def deepcopyList : Nat → Heap → Nat → List HValue → Option (Heap × Nat × List HValue)
  | 0, _, _, _ => none
  | _ + 1, h, n, [] => some (h, n, [])
  | fuel + 1, h, n, v :: rest =>
    match deepcopyVal fuel h n v with
    | some (h1, n1, v') =>
      match deepcopyList fuel h1 n1 rest with
      | some (h2, n2, rest') => some (h2, n2, v' :: rest')
      | none => none
    | none => none

/-- `deepcopyVal` over an object's fields, in order. -/
def deepcopyObj : Nat → Heap → Nat → HObj → Option (Heap × Nat × HObj)
  | 0, _, _, _ => none
  | _ + 1, h, n, [] => some (h, n, [])
  | fuel + 1, h, n, (k, v) :: rest =>
    match deepcopyVal fuel h n v with
    | some (h1, n1, v') =>
      match deepcopyObj fuel h1 n1 rest with
      | some (h2, n2, rest') => some (h2, n2, (k, v') :: rest')
      | none => none
    | none => none

end

/-- `obj[k] = v` on the object stored at address `a` (in-place dict
assignment through a reference): every entry at that address gets the
field updated, all other entries stay as they are. -/
def heapSetField : Heap → Nat → String → HValue → Heap
  | [], _, _, _ => []
  | (b, o) :: rest, a, k, v =>
    if b = a then (b, dictSet o k v) :: heapSetField rest a k v
    else (b, o) :: heapSetField rest a k v

/-- `del obj[k]` on the object stored at address `a`. -/
def heapDelField : Heap → Nat → String → Heap
  | [], _, _ => []
  | (b, o) :: rest, a, k =>
    if b = a then (b, dictDel o k) :: heapDelField rest a k
    else (b, o) :: heapDelField rest a k

/-- `CommentManager._process_replies` against the heap: the reply list
holds references to comment dicts; each is mutated in place (`user`
replaced by its login, CRLF-normalised `body`, `parent` set) and its
address recorded under its `id`. -/
def process_replies_heap : Heap → List HValue → Int → List (Int × Nat) → Option (Heap × List (Int × Nat))
  | h, [], _, acc => some (h, acc)
  | h, v :: rest, parent, acc =>
    match v with
    | HValue.hRef ca =>
      match dictGet h ca with
      | some c =>
        match dictGet c "user" with
        | some (HValue.hRef ua) =>
          match dictGet h ua with
          | some uo =>
            match dictGet uo "login" with
            | some lg =>
              let h1 := heapSetField h ca "user" lg
              match dictGet c "body" with
              | some (HValue.hStr b) =>
                let h2 := heapSetField h1 ca "body" (HValue.hStr (pyReplaceCRLF b))
                let h3 := heapSetField h2 ca "parent" (HValue.hInt parent)
                match dictGet c "id" with
                | some (HValue.hInt cid) =>
                  process_replies_heap h3 rest parent (dictSet acc cid ca)
                | _ => none
              | _ => none
            | none => none
          | none => none
        | _ => none
      | none => none
    | _ => none

/-- One iteration of `_parse_comments`' loop against the heap: the same
steps as `process_issue`, but mutating the issue object at address `a`
in place and storing addresses in the flat collection. -/
def process_issue_heap (h : Heap) (flat : List (Int × Nat)) (mapping : PageIndex)
    (a : Nat) : Option (Heap × List (Int × Nat) × PageIndex) :=
  match dictGet h a with
  | some o =>
    match dictGet o "user" with
    | some (HValue.hRef ua) =>
      match dictGet h ua with
      | some uo =>
        match dictGet uo "login" with
        | some lg =>
          let h1 := heapSetField h a "user" lg
          match dictGet o "body" with
          | some (HValue.hStr b) =>
            match parse_comment_body b with
            | some (parent_page, body_text) =>
              let h2 := heapSetField h1 a "page" (HValue.hStr parent_page)
              let h3 := heapSetField h2 a "body" (HValue.hStr body_text)
              let h4 := heapSetField h3 a "parent" (HValue.hInt 0)
              match dictGet o "id" with
              | some (HValue.hInt iid) =>
                let m1 := if (dictGet mapping parent_page).isSome then mapping
                          else dictSet mapping parent_page []
                let m2 := pageAppend m1 parent_page iid
                match dictGet o "comments" with
                | some (HValue.hList reps) =>
                  let h5 := heapDelField h4 a "comments"
                  match process_replies_heap h5 reps iid [] with
                  | some (h6, rdict) =>
                    let h7 := heapSetField h6 a "replies"
                      (HValue.hList ((rdict.map Prod.fst).map HValue.hInt))
                    some (h7, dictSet (dictUpdate flat rdict) iid a, m2)
                  | none => none
                | _ => none
              | _ => none
            | none => none
          | _ => none
        | none => none
      | none => none
    | _ => none
  | none => none

/-- The loop of `_parse_comments` over the (copied) issue references. -/
def process_all_heap : Heap → List HValue → List (Int × Nat) → PageIndex →
    Option (Heap × List (Int × Nat) × PageIndex)
  | h, [], flat, mapping => some (h, flat, mapping)
  | h, HValue.hRef a :: rest, flat, mapping =>
    match process_issue_heap h flat mapping a with
    | some (h', flat', mapping') => process_all_heap h' rest flat' mapping'
    | none => none
  | _, _ :: _, _, _ => none

/-- `CommentManager._parse_comments` against the heap: first
`deepcopy` the issue records (allocating fresh addresses from `n` on),
then process the copies, mutating only them. -/
def parse_comments_heap (fuel : Nat) (h : Heap) (n : Nat) (issues : List HValue) :
    Option (Heap × List (Int × Nat) × PageIndex) :=
  match deepcopyList fuel h n issues with
  | some (h1, _, copies) => process_all_heap h1 copies [] []
  | none => none

/-- A small API-client heap: issue 42 at address 0, the shared user
object at address 1, one reply comment at address 2. -/
def c9Heap : Heap :=
  [(0, [("id", HValue.hInt 42), ("node_id", HValue.hStr "I_1"),
        ("user", HValue.hRef 1),
        ("body", HValue.hStr "---\npage: /blog/post-1/\n---\nGreat post!"),
        ("comments", HValue.hList [HValue.hRef 2])]),
   (1, [("login", HValue.hStr "alice")]),
   (2, [("id", HValue.hInt 900), ("body", HValue.hStr "Thanks!\r\n"),
        ("user", HValue.hRef 1)])]

/-- The builder run on `c9Heap` (fresh addresses start at 3). -/
def c9Run : Option (Heap × List (Int × Nat) × PageIndex) :=
  parse_comments_heap 20 c9Heap 3 [HValue.hRef 0]

/-- The heap after the builder ran on `c9Heap`. -/
def c9HeapOut : Heap :=
  match c9Run with
  | some (hh, _, _) => hh
  | none => []

def c9FlatOut : List (Int × Nat) :=
  match c9Run with
  | some (_, f, _) => f
  | none => []

def c9MapOut : PageIndex :=
  match c9Run with
  | some (_, _, m) => m
  | none => []

/-- What a deep copy does to the heap: it only appends objects at
fresh addresses (at least `n`), whose own references again point at
fresh addresses, and the allocation counter only grows. -/
def CopyOut (h : Heap) (n : Nat) (h' : Heap) (n' : Nat) : Prop :=
  n ≤ n' ∧ ∃ ext, h' = h ++ ext ∧ ∀ p ∈ ext, n ≤ p.1 ∧ ∀ r ∈ refsInObj p.2, n ≤ r

/-- The frame property: every address below `n` maps to the same
object in both heaps. -/
def LowUnchanged (n : Nat) (h h' : Heap) : Prop :=
  ∀ a, a < n → dictGet h' a = dictGet h a

/-- Objects at high addresses (at least `n`) only reference high
addresses: the builder's mutations stay inside the copied region. -/
def HighRefs (n : Nat) (h : Heap) : Prop :=
  ∀ p ∈ h, n ≤ p.1 → ∀ r ∈ refsInObj p.2, n ≤ r

/-! ## Association-list (Python dict) lemmas -/

theorem dictGet_set_self {κ α : Type} [DecidableEq κ] (d : List (κ × α)) (k : κ) (v : α) :
    dictGet (dictSet d k v) k = some v := by
  induction d with
  | nil => simp [dictSet, dictGet]
  | cons p rest ih =>
    obtain ⟨k', v'⟩ := p
    by_cases h : k' = k
    · subst h; simp [dictSet, dictGet]
    · simp [dictSet, dictGet, h, ih]

theorem dictGet_set_ne {κ α : Type} [DecidableEq κ] (d : List (κ × α)) (k k' : κ) (v : α)
    (h : k' ≠ k) : dictGet (dictSet d k v) k' = dictGet d k' := by
  induction d with
  | nil => simp [dictSet, dictGet, Ne.symm h]
  | cons p rest ih =>
    obtain ⟨a, b⟩ := p
    by_cases ha : a = k
    · subst ha
      simp [dictSet, dictGet, Ne.symm h]
    · by_cases hb : a = k'
      · subst hb; simp [dictSet, dictGet, ha]
      · simp [dictSet, dictGet, ha, hb, ih]

theorem dictGet_eq_none_iff {κ α : Type} [DecidableEq κ] (d : List (κ × α)) (k : κ) :
    dictGet d k = none ↔ k ∉ d.map Prod.fst := by
  induction d with
  | nil => simp [dictGet]
  | cons p rest ih =>
    obtain ⟨a, b⟩ := p
    by_cases ha : a = k
    · subst ha; simp [dictGet]
    · simp [dictGet, ha, ih, Ne.symm ha]

theorem dictSet_eq_append {κ α : Type} [DecidableEq κ] (d : List (κ × α)) (k : κ) (v : α)
    (h : dictGet d k = none) : dictSet d k v = d ++ [(k, v)] := by
  induction d with
  | nil => simp [dictSet]
  | cons p rest ih =>
    obtain ⟨a, b⟩ := p
    by_cases ha : a = k
    · subst ha; simp [dictGet] at h
    · simp [dictGet, ha] at h
      simp [dictSet, ha, ih h]

theorem dictGet_append_left {κ α : Type} [DecidableEq κ] {d : List (κ × α)} {k : κ} {v : α}
    (e : List (κ × α)) (h : dictGet d k = some v) : dictGet (d ++ e) k = some v := by
  induction d with
  | nil => simp [dictGet] at h
  | cons p rest ih =>
    obtain ⟨a, b⟩ := p
    by_cases ha : a = k
    · subst ha; simp [dictGet] at h ⊢; exact h
    · simp [dictGet, ha] at h ⊢; exact ih h

theorem dictGet_append_right {κ α : Type} [DecidableEq κ] {d : List (κ × α)} {k : κ}
    (e : List (κ × α)) (h : dictGet d k = none) : dictGet (d ++ e) k = dictGet e k := by
  induction d with
  | nil => simp
  | cons p rest ih =>
    obtain ⟨a, b⟩ := p
    by_cases ha : a = k
    · subst ha; simp [dictGet] at h
    · simp [dictGet, ha] at h ⊢; exact ih h

theorem dictGet_mem {κ α : Type} [DecidableEq κ] (d : List (κ × α)) (k : κ) (v : α)
    (h : dictGet d k = some v) : (k, v) ∈ d := by
  induction d with
  | nil => simp [dictGet] at h
  | cons p rest ih =>
    obtain ⟨a, b⟩ := p
    by_cases ha : a = k
    · subst ha
      simp [dictGet] at h
      simp [h]
    · simp [dictGet, ha] at h
      exact List.mem_cons_of_mem _ (ih h)

theorem dictGet_del_ne {κ α : Type} [DecidableEq κ] (d : List (κ × α)) (k k' : κ)
    (h : k' ≠ k) : dictGet (dictDel d k) k' = dictGet d k' := by
  induction d with
  | nil => rfl
  | cons p rest ih =>
    obtain ⟨a, b⟩ := p
    by_cases ha : a = k
    · subst ha; simp [dictDel, dictGet, Ne.symm h]
    · by_cases hb : a = k'
      · subst hb; simp [dictDel, dictGet, ha]
      · simp [dictDel, dictGet, ha, hb, ih]

theorem keys_dictSet_of_mem {κ α : Type} [DecidableEq κ] (d : List (κ × α)) (k : κ) (v w : α)
    (h : dictGet d k = some w) : (dictSet d k v).map Prod.fst = d.map Prod.fst := by
  induction d with
  | nil => simp [dictGet] at h
  | cons p rest ih =>
    obtain ⟨a, b⟩ := p
    by_cases ha : a = k
    · subst ha; simp [dictSet]
    · simp [dictGet, ha] at h
      simp [dictSet, ha, ih h]

theorem dictUpdate_eq_append {κ α : Type} [DecidableEq κ] :
    ∀ (e d : List (κ × α)), (∀ p ∈ e, dictGet d p.1 = none) →
      (e.map Prod.fst).Nodup → dictUpdate d e = d ++ e
  | [], d, _, _ => by simp [dictUpdate]
  | (k, v) :: e', d, hfresh, hnodup => by
    have hk : dictGet d k = none := hfresh (k, v) (by simp)
    have hstep : dictSet d k v = d ++ [(k, v)] := dictSet_eq_append d k v hk
    have hnd : (e'.map Prod.fst).Nodup := (List.nodup_cons.mp hnodup).2
    have hkn : k ∉ e'.map Prod.fst := (List.nodup_cons.mp hnodup).1
    have hfresh' : ∀ p ∈ e', dictGet (d ++ [(k, v)]) p.1 = none := by
      intro p hp
      have h1 : dictGet d p.1 = none := hfresh p (by simp [hp])
      have h2 : p.1 ≠ k := by
        intro he
        exact hkn (he ▸ List.mem_map_of_mem Prod.fst hp)
      rw [dictGet_append_right _ h1]
      simp [dictGet, Ne.symm h2]
    calc dictUpdate d ((k, v) :: e')
        = dictUpdate (dictSet d k v) e' := by simp [dictUpdate]
      _ = dictUpdate (d ++ [(k, v)]) e' := by rw [hstep]
      _ = (d ++ [(k, v)]) ++ e' := dictUpdate_eq_append e' (d ++ [(k, v)]) hfresh' hnd
      _ = d ++ ((k, v) :: e') := by simp

/-! ## List-strip lemmas (for the page identifier) -/

theorem dropWhile_append_of_all {α : Type} (p : α → Bool) :
    ∀ (xs ys : List α), (∀ c ∈ xs, p c = true) →
      (xs ++ ys).dropWhile p = ys.dropWhile p
  | [], ys, _ => rfl
  | x :: xs, ys, h => by
    have hx : p x = true := h x (by simp)
    simp only [List.cons_append, List.dropWhile_cons, hx, if_true]
    exact dropWhile_append_of_all p xs ys (fun c hc => h c (by simp [hc]))

theorem dropWhile_eq_nil_of_all {α : Type} (p : α → Bool) :
    ∀ (xs : List α), (∀ c ∈ xs, p c = true) → xs.dropWhile p = []
  | [], _ => rfl
  | x :: xs, h => by
    have hx : p x = true := h x (by simp)
    simp only [List.dropWhile_cons, hx, if_true]
    exact dropWhile_eq_nil_of_all p xs (fun c hc => h c (by simp [hc]))

theorem dropWhile_cons_of_neg {α : Type} (p : α → Bool) (c : α) (l : List α)
    (h : p c = false) : (c :: l).dropWhile p = c :: l := by
  simp [List.dropWhile_cons, h]

/-! ## Claim C1 — the flat collection and page index of a thread -/

/-- C1 (counterexample): the claim keys the flat collection (and the
page index, and the replies' `parent`) by the *issue number*, but the
builder uses the issue's `id` field everywhere.  For the scenario issue
with `number = 42` and `id = 4242`, nothing is stored under 42: the
record sits under 4242, the reply's `parent` is 4242, and the page
index lists 4242. -/
theorem c1_issue_number_counterexample :
    dictGet (flatOf (parse_comments [c1IssueNum])) 42 = none ∧
    (dictGet (flatOf (parse_comments [c1IssueNum])) 4242).isSome = true ∧
    dictGet (recAt (flatOf (parse_comments [c1IssueNum])) 900) "parent"
      = some (Value.vInt 4242) ∧
    dictGet (mapOf (parse_comments [c1IssueNum])) "blog/post-1" = some [4242] :=
  ⟨rfl, rfl, rfl, rfl⟩

/-- C1 (amended: keyed by the issue's `id` field, which in the
scenario equals 42): the builder maps the scenario issue to exactly the
expected flat collection — the issue record under key 42 with
`body = "Great post!"`, `page = "blog/post-1"`, `parent = 0`,
`replies = [900]`; the reply under key 900 with `body = "Thanks!\n"`
(CRLF collapsed), `parent = 42`, `user = "bob"` — and the page index
`{"blog/post-1": [42]}`. -/
theorem c1_flat_insertion_amended :
    parse_comments [c1IssueId42] = some
      ([(900, [("id", Value.vInt 900), ("node_id", Value.vStr "IC_kwDO9"),
               ("body", Value.vStr "Thanks!\n"), ("user", Value.vStr "bob"),
               ("parent", Value.vInt 42)]),
        (42, [("id", Value.vInt 42), ("node_id", Value.vStr "I_kwDO1"),
              ("number", Value.vInt 42), ("title", Value.vStr "Comments: blog post 1"),
              ("user", Value.vStr "alice"), ("body", Value.vStr "Great post!"),
              ("page", Value.vStr "blog/post-1"), ("parent", Value.vInt 0),
              ("replies", Value.vList [Value.vInt 900])])],
       [("blog/post-1", [42])]) := rfl

/-! ## Claim C2 — the issue-comments cache is never consulted -/

/-- C2 (code bug): after a completed `get_issue_comments(5)` call the
comment *is* stored (under the tuple key `(5, 900)`), but the cache-hit
test looks up the bare number 5, which matches no tuple key; so a
second call with the same issue number sends the network request again
(the log grows from one request to two) instead of returning from the
cache, even though it does return the same list. -/
theorem c2_comment_cache_refetch :
    c2State1.log.length = 1 ∧
    (dictGet c2State1.issue_comments (CKey.pair 5 900)).isSome = true ∧
    (dictGet c2State1.issue_comments (CKey.num 5)).isSome = false ∧
    c2State2.log.length = 2 ∧
    apiValueOf c2Run2 = apiValueOf c2Run1 :=
  ⟨rfl, rfl, rfl, rfl, rfl⟩

/-! ## Claim C5 — trimming of the `page` metadata value -/

/-- C5 (counterexample): the code strips only `/` and the space
character (`strip("/ ")`), not all whitespace: for the front-matter
value `"\t/blog/"` (surrounded by a mix of `/` and whitespace including
a tab) the code produces `"\t/blog"`, not the fully-trimmed `"blog"`
the claim predicts. -/
theorem c5_whitespace_counterexample :
    page_identifier "\t/blog/" = "\t/blog" ∧
    spec_page_identifier "\t/blog/" = "blog" ∧
    page_identifier "\t/blog/" ≠ spec_page_identifier "\t/blog/" :=
  ⟨rfl, rfl, by decide⟩

/-- C5 (amended: surrounding `/` and *space* characters): for every
front-matter `page` value consisting of a core that neither starts nor
ends with `/` or `' '`, surrounded by any mix of `/` and space
characters, the page identifier is exactly the core. -/
theorem c5_page_trim_amended (pre core suf : List Char)
    (hpre : ∀ c ∈ pre, c = '/' ∨ c = ' ')
    (hsuf : ∀ c ∈ suf, c = '/' ∨ c = ' ')
    (hhead : ∀ c, core.head? = some c → ¬(c = '/' ∨ c = ' '))
    (hlast : ∀ c, core.getLast? = some c → ¬(c = '/' ∨ c = ' ')) :
    page_identifier (String.mk (pre ++ core ++ suf)) = String.mk core := by
  set p : Char → Bool := fun c => decide (c ∈ ['/', ' ']) with hp
  have hpiff : ∀ c : Char, p c = true ↔ (c = '/' ∨ c = ' ') := by
    intro c; simp [hp]
  have hpre' : ∀ c ∈ pre, p c = true := fun c hc => (hpiff c).mpr (hpre c hc)
  have hsuf' : ∀ c ∈ suf.reverse, p c = true := fun c hc =>
    (hpiff c).mpr (hsuf c (List.mem_reverse.mp hc))
  show String.mk (stripList p (pre ++ core ++ suf)) = String.mk core
  congr 1
  unfold stripList
  cases core with
  | nil =>
    rw [List.append_nil]
    rw [dropWhile_append_of_all p pre suf hpre']
    rw [dropWhile_eq_nil_of_all p suf (fun c hc => (hpiff c).mpr (hsuf c hc))]
    rfl
  | cons c core' =>
    have hc : p c = false := by
      have h1 : ¬(c = '/' ∨ c = ' ') := hhead c rfl
      cases hpc : p c with
      | false => rfl
      | true => exact absurd ((hpiff c).mp hpc) h1
    cases hr : (c :: core').reverse with
    | nil => exact absurd (congrArg List.length hr) (by simp)
    | cons d ds =>
      have hd : (c :: core').getLast? = some d := by
        rw [← List.head?_reverse, hr]; rfl
      have hdp : p d = false := by
        have h1 : ¬(d = '/' ∨ d = ' ') := hlast d hd
        cases hpd : p d with
        | false => rfl
        | true => exact absurd ((hpiff d).mp hpd) h1
      rw [List.append_assoc]
      rw [dropWhile_append_of_all p pre _ hpre']
      rw [show (c :: core') ++ suf = c :: (core' ++ suf) from rfl]
      rw [dropWhile_cons_of_neg p c _ hc]
      rw [show c :: (core' ++ suf) = (c :: core') ++ suf from rfl]
      rw [List.reverse_append]
      rw [dropWhile_append_of_all p suf.reverse _ hsuf']
      rw [hr]
      rw [dropWhile_cons_of_neg p d _ hdp]
      rw [← hr, List.reverse_reverse]

/-- C5 witness: the theorem applied to the scenario value
`"/blog/post-1/"` (one slash on each side around `blog/post-1`). -/
theorem c5_page_trim_amended_witness :
    page_identifier (String.mk (['/'] ++
        ['b', 'l', 'o', 'g', '/', 'p', 'o', 's', 't', '-', '1'] ++ ['/']))
      = String.mk ['b', 'l', 'o', 'g', '/', 'p', 'o', 's', 't', '-', '1'] ∧
    page_identifier "/blog/post-1/" = "blog/post-1" :=
  ⟨c5_page_trim_amended ['/'] ['b', 'l', 'o', 'g', '/', 'p', 'o', 's', 't', '-', '1'] ['/']
      (by intro c hc; simp at hc; simp [hc])
      (by intro c hc; simp at hc; simp [hc])
      (by intro c hc; injection hc with h; subst h; decide)
      (by intro c hc; simp at hc; subst hc; decide),
   rfl⟩

/-! ## Claim C6 — a body without a `page` key is fatal -/

theorem parse_comment_body_none (b : String)
    (hpage : dictGet (frontmatterParse b).1 "page" = none) :
    parse_comment_body b = none := by
  unfold parse_comment_body
  rcases hfp : frontmatterParse b with ⟨md, ct⟩
  rw [hfp] at hpage
  simp at hpage
  simp [hpage]

theorem process_issue_none_of_no_page (flat : FlatMap) (mapping : PageIndex)
    (issue : Obj) (b : String)
    (hbody : dictGet issue "body" = some (Value.vStr b))
    (hpage : dictGet (frontmatterParse b).1 "page" = none) :
    process_issue flat mapping issue = none := by
  have hpcb : parse_comment_body b = none := parse_comment_body_none b hpage
  cases hu : dictGet issue "user" with
  | none => simp [process_issue, hu]
  | some uv =>
    cases uv with
    | vObj u =>
      cases hl : dictGet u "login" with
      | none => simp [process_issue, hu, hl]
      | some lg => simp [process_issue, hu, hl, hbody, hpcb]
    | vInt n => simp [process_issue, hu]
    | vStr s => simp [process_issue, hu]
    | vBool bo => simp [process_issue, hu]
    | vNull => simp [process_issue, hu]
    | vList l => simp [process_issue, hu]

/-- C6: an issue whose body has no parsable `page` metadata key makes
the builder fail (the Python code raises `KeyError` at
`metadata["page"]`): whenever such an issue occurs anywhere in the
input, `_parse_comments` produces no output at all — in particular it
never silently produces a thread missing from the page index.
(The front-matter parsing itself is modelled from the spec, see
`frontmatterParse`.) -/
theorem c6_missing_page_fatal (issues : List Obj) (issue : Obj) (b : String)
    (hmem : issue ∈ issues)
    (hbody : dictGet issue "body" = some (Value.vStr b))
    (hpage : dictGet (frontmatterParse b).1 "page" = none) :
    parse_comments issues = none := by
  suffices h : ∀ (l : List Obj) (flat : FlatMap) (mapping : PageIndex),
      issue ∈ l → parse_comments_aux l flat mapping = none by
    exact h issues [] [] hmem
  intro l
  induction l with
  | nil => intro _ _ h; cases h
  | cons i rest ih =>
    intro flat mapping hmem'
    rcases List.mem_cons.mp hmem' with heq | htail
    · subst heq
      unfold parse_comments_aux
      rw [process_issue_none_of_no_page flat mapping issue b hbody hpage]
    · unfold parse_comments_aux
      cases hpi : process_issue flat mapping i with
      | none => rfl
      | some r =>
        obtain ⟨f', m'⟩ := r
        exact ih f' m' htail

/-- C6 witness: the theorem applied to `c6Issue`, whose body is plain
text with no front matter. -/
theorem c6_missing_page_fatal_witness :
    parse_comments [c6Issue] = none :=
  c6_missing_page_fatal [c6Issue] c6Issue
    "just a plain body with no front matter" (by simp) rfl rfl

/-! ## Claim C3 — the user cache is idempotent (for canonical logins) -/

/-- C3 (counterexample): with a network whose canonical login for
`bob` is `"Bob"`, the record is cached under `"Bob"`; a second
`get_user("bob")` call therefore misses the cache and performs another
network request (two logged requests in total), contradicting the
claim's unconditional "every subsequent call … without performing any
network I/O". -/
theorem c3_user_cache_counterexample :
    bobState1.log.length = 1 ∧
    (dictGet bobState1.users "bob").isSome = false ∧
    bobState2.log.length = 2 :=
  ⟨rfl, rfl, rfl⟩

/-- C3 (amended: provided the response's `login` field equals the
requested username): the first `get_user` call performs exactly one
network request (the response `o` carrying no `user` key), stores the
filtered record under the username, and every later call on a state
whose cache holds that record returns the very stored record with the
state — hence the log, hence the network — untouched. -/
theorem c3_user_cache_idempotent_amended (net : Net) (fuel : Nat) (st : ApiState)
    (u nid : String) (o : Obj)
    (hmiss : dictGet st.users u = none)
    (hnet : net ["users", u] = Value.vObj o)
    (hnouser : dictGet (keepKeys o USER_FILTER_KEYS) "user" = none)
    (hnid : dictGet (keepKeys o USER_FILTER_KEYS) "node_id" = some (Value.vStr nid))
    (hlogin : dictGet (keepKeys o USER_FILTER_KEYS) "login" = some (Value.vStr u)) :
    get_user net (fuel + 2) st u =
      some ({ st with log := st.log ++ [["users", u]],
                      nodes := dictSet st.nodes nid (keepKeys o USER_FILTER_KEYS),
                      users := dictSet st.users u (keepKeys o USER_FILTER_KEYS) },
            keepKeys o USER_FILTER_KEYS) ∧
    ∀ (fuel2 : Nat) (st2 : ApiState),
      dictGet st2.users u = some (keepKeys o USER_FILTER_KEYS) →
      get_user net (fuel2 + 1) st2 u = some (st2, keepKeys o USER_FILTER_KEYS) := by
  constructor
  · show get_user net (fuel + 1 + 1) st u = _
    simp [get_user, hmiss, get_resource, hnet, filter_fields, hnouser, hnid, hlogin]
  · intro fuel2 st2 h2
    simp [get_user, h2]

/-- C3 witness: the canonical user `alice` — the first call builds
`aliceState1` with one logged request, the second returns the cached
record with the state unchanged. -/
theorem c3_user_cache_idempotent_witness :
    get_user aliceNet 2 emptyState "alice" = some (aliceState1, aliceRec) ∧
    get_user aliceNet 1 aliceState1 "alice" = some (aliceState1, aliceRec) := by
  have h := c3_user_cache_idempotent_amended aliceNet 0 emptyState "alice" "U_alice"
    aliceRespObj rfl rfl rfl rfl rfl
  exact ⟨h.1, h.2 0 aliceState1 rfl⟩

/-! ## Claim C10 — the user cache is keyed by the response's login -/

/-- C10: on a cache miss, `get_user(username)` stores the fetched
record under the *response's* `login` field `l`; if `l` differs from
the `username` argument, the username is still absent from the cache
afterwards, so the next `get_user(username)` call misses again and
sends another network request (the log grows by one on every call). -/
theorem c10_user_cache_by_login (net : Net) (fuel : Nat) (st : ApiState)
    (u l nid : String) (o : Obj)
    (hmiss : dictGet st.users u = none)
    (hnet : net ["users", u] = Value.vObj o)
    (hnouser : dictGet (keepKeys o USER_FILTER_KEYS) "user" = none)
    (hnid : dictGet (keepKeys o USER_FILTER_KEYS) "node_id" = some (Value.vStr nid))
    (hlogin : dictGet (keepKeys o USER_FILTER_KEYS) "login" = some (Value.vStr l))
    (hne : l ≠ u) :
    get_user net (fuel + 2) st u =
      some ({ st with log := st.log ++ [["users", u]],
                      nodes := dictSet st.nodes nid (keepKeys o USER_FILTER_KEYS),
                      users := dictSet st.users l (keepKeys o USER_FILTER_KEYS) },
            keepKeys o USER_FILTER_KEYS) ∧
    dictGet (dictSet st.users l (keepKeys o USER_FILTER_KEYS)) l
      = some (keepKeys o USER_FILTER_KEYS) ∧
    dictGet (dictSet st.users l (keepKeys o USER_FILTER_KEYS)) u = none ∧
    get_user net (fuel + 2)
      ({ st with log := st.log ++ [["users", u]],
                 nodes := dictSet st.nodes nid (keepKeys o USER_FILTER_KEYS),
                 users := dictSet st.users l (keepKeys o USER_FILTER_KEYS) }) u =
      some ({ st with log := (st.log ++ [["users", u]]) ++ [["users", u]],
                      nodes := dictSet (dictSet st.nodes nid (keepKeys o USER_FILTER_KEYS))
                        nid (keepKeys o USER_FILTER_KEYS),
                      users := dictSet (dictSet st.users l (keepKeys o USER_FILTER_KEYS))
                        l (keepKeys o USER_FILTER_KEYS) },
            keepKeys o USER_FILTER_KEYS) := by
  have hstill : dictGet (dictSet st.users l (keepKeys o USER_FILTER_KEYS)) u = none := by
    rw [dictGet_set_ne st.users l u _ (Ne.symm hne)]; exact hmiss
  refine ⟨?_, dictGet_set_self st.users l _, hstill, ?_⟩
  · show get_user net (fuel + 1 + 1) st u = _
    simp [get_user, hmiss, get_resource, hnet, filter_fields, hnouser, hnid, hlogin]
  · show get_user net (fuel + 1 + 1) _ u = _
    simp [get_user, hstill, get_resource, hnet, filter_fields, hnouser, hnid, hlogin]

/-- C10 witness: `get_user("bob")` against a network whose canonical
login is `"Bob"` stores the record under `"Bob"` and leaves `"bob"`
uncached. -/
theorem c10_user_cache_by_login_witness :
    get_user bobNet 2 emptyState "bob" =
      some ({ emptyState with log := emptyState.log ++ [["users", "bob"]],
                              nodes := dictSet emptyState.nodes "U_Bob" bobRec,
                              users := dictSet emptyState.users "Bob" bobRec },
            bobRec) ∧
    dictGet (dictSet emptyState.users "Bob" bobRec) "bob" = none := by
  have h := c10_user_cache_by_login bobNet 0 emptyState "bob" "Bob" "U_Bob" bobRespObj
    rfl rfl rfl rfl rfl (by decide)
  exact ⟨h.1, h.2.2.1⟩

/-! ## Claim C7 — the field filter's key set -/

/-- C7: whenever `_filter_fields(raw, allowed)` returns, the key set
of the returned mapping is exactly
`(allowed ∪ UNIVERSAL_KEYS) ∩ keys(raw)`: a key occurs in the output
iff it occurs in the input and is universal or allowed.  (The `user`
value may be replaced by the canonical record, but that changes no
key.) -/
theorem c7_filter_key_set (net : Net) (fuel : Nat) (st : ApiState) (o : Obj)
    (fk : List String) (st' : ApiState) (r : Obj)
    (h : filter_fields net fuel st o fk = some (st', r)) :
    ∀ k, k ∈ r.map Prod.fst ↔
      (k ∈ o.map Prod.fst ∧ (k ∈ UNIVERSAL_KEYS ∨ k ∈ fk)) := by
  have hkeys : r.map Prod.fst = (keepKeys o fk).map Prod.fst := by
    cases fuel with
    | zero => simp [filter_fields] at h
    | succ n =>
      cases hu : dictGet (keepKeys o fk) "user" with
      | none =>
        simp [filter_fields, hu] at h
        rw [← h.2]
      | some uv =>
        cases uv with
        | vObj u =>
          cases hl : dictGet u "login" with
          | none => simp [filter_fields, hu, hl] at h
          | some lv =>
            cases lv with
            | vStr login =>
              cases hg : get_user net n st login with
              | none => simp [filter_fields, hu, hl, hg] at h
              | some pr =>
                obtain ⟨stx, urec⟩ := pr
                simp [filter_fields, hu, hl, hg] at h
                rw [← h.2]
                exact keys_dictSet_of_mem _ _ _ _ hu
            | vInt x => simp [filter_fields, hu, hl] at h
            | vBool x => simp [filter_fields, hu, hl] at h
            | vNull => simp [filter_fields, hu, hl] at h
            | vList x => simp [filter_fields, hu, hl] at h
            | vObj x => simp [filter_fields, hu, hl] at h
        | vInt x => simp [filter_fields, hu] at h
        | vStr x => simp [filter_fields, hu] at h
        | vBool x => simp [filter_fields, hu] at h
        | vNull => simp [filter_fields, hu] at h
        | vList x => simp [filter_fields, hu] at h
  intro k
  rw [hkeys]
  unfold keepKeys
  constructor
  · intro hk
    rcases List.mem_map.mp hk with ⟨⟨k', v⟩, hmem', heq⟩
    simp at heq
    subst heq
    obtain ⟨hmemo, hcond⟩ := List.mem_filter.mp hmem'
    simp at hcond
    exact ⟨List.mem_map_of_mem Prod.fst hmemo, hcond⟩
  · rintro ⟨hk, hcond⟩
    rcases List.mem_map.mp hk with ⟨⟨k', v⟩, hmem', heq⟩
    simp at heq
    subst heq
    exact List.mem_map_of_mem Prod.fst (List.mem_filter.mpr ⟨hmem', by simp [hcond]⟩)

/-- C7 witness: the theorem applied to `c7Obj` (which carries allowed,
universal and extraneous keys) at the extraneous key `"junk"`, which is
filtered out. -/
theorem c7_filter_key_set_witness :
    ("junk" ∈ c7Out.map Prod.fst ↔
      ("junk" ∈ c7Obj.map Prod.fst ∧
        ("junk" ∈ UNIVERSAL_KEYS ∨ "junk" ∈ COMMENT_FILTER_KEYS))) ∧
    "junk" ∉ c7Out.map Prod.fst :=
  ⟨c7_filter_key_set nullNet 1 emptyState c7Obj COMMENT_FILTER_KEYS emptyState c7Out
      rfl "junk",
   by decide⟩

/-! ## Claim C8 — pull requests never become issue records -/

/-- C8: `_filter_issues` behaves on any raw response exactly as on the
response with every `pull_request`-carrying entry removed — a skipped
entry contributes nothing to the returned records, to the state (hence
to the `nodes`/`issues` caches `get_issues` later fills), or to any
network effect. -/
theorem c8_pull_request_skip (net : Net) (fuel : Nat) (st : ApiState)
    (resp : List Value) :
    filter_issues net fuel st resp =
      filter_issues net fuel st (resp.filter notPullRequest) := by
  induction resp generalizing st with
  | nil => rfl
  | cons v rest ih =>
    cases v with
    | vObj o =>
      cases hpr : (dictGet o "pull_request").isSome with
      | true =>
        have hf : notPullRequest (Value.vObj o) = false := by
          simp [notPullRequest, hpr]
        rw [List.filter_cons_of_neg (by simp [hf])]
        rw [show filter_issues net fuel st (Value.vObj o :: rest)
              = filter_issues net fuel st rest by simp [filter_issues, hpr]]
        exact ih st
      | false =>
        have hf : notPullRequest (Value.vObj o) = true := by
          simp [notPullRequest, hpr]
        rw [List.filter_cons_of_pos (by simp [hf])]
        cases hff : filter_fields net fuel st o ISSUE_FILTER_KEYS with
        | none => simp [filter_issues, hpr, hff]
        | some pr =>
          obtain ⟨st1, i⟩ := pr
          simp [filter_issues, hpr, hff, ih st1]
    | vInt x => simp [filter_issues, List.filter_cons, notPullRequest]
    | vStr x => simp [filter_issues, List.filter_cons, notPullRequest]
    | vBool x => simp [filter_issues, List.filter_cons, notPullRequest]
    | vNull => simp [filter_issues, List.filter_cons, notPullRequest]
    | vList x => simp [filter_issues, List.filter_cons, notPullRequest]

/-! ## Claim C4 — parent/child integrity of the flat collection -/

/-- What `_process_replies` produces when it succeeds and the reply ids
are fresh and mutually distinct: the accumulator is extended by one
entry per reply, keyed by the reply ids in order, each record carrying
`parent = parent`. -/
theorem process_replies_aux_spec (l : List Value) (parent : Int) :
    ∀ (acc acc' : FlatMap),
      process_replies_aux l parent acc = some acc' →
      (∀ x ∈ idsOfVals l, dictGet acc x = none) →
      (idsOfVals l).Nodup →
      ∃ ext : FlatMap, acc' = acc ++ ext ∧ ext.map Prod.fst = idsOfVals l ∧
        ∀ p ∈ ext, dictGet p.2 "parent" = some (Value.vInt parent) := by
  induction l with
  | nil =>
    intro acc acc' h _ _
    simp [process_replies_aux] at h
    exact ⟨[], by simp [← h], rfl, by simp⟩
  | cons v rest ih =>
    intro acc acc' h hfresh hnodup
    cases v with
    | vObj c =>
      cases hu : dictGet c "user" with
      | none => simp [process_replies_aux, hu] at h
      | some uv =>
        cases uv with
        | vObj u =>
          cases hl : dictGet u "login" with
          | none => simp [process_replies_aux, hu, hl] at h
          | some lg =>
            cases hb : dictGet (dictSet c "user" lg) "body" with
            | none => simp [process_replies_aux, hu, hl, hb] at h
            | some bv =>
              cases bv with
              | vStr b =>
                cases hid : dictGet c "id" with
                | none => simp [process_replies_aux, hu, hl, hb, hid] at h
                | some idv =>
                  cases idv with
                  | vInt cid =>
                    simp only [process_replies_aux, hu, hl, hb, hid] at h
                    have hids : idsOfVals (Value.vObj c :: rest) = cid :: idsOfVals rest := by
                      simp [idsOfVals, hid]
                    rw [hids] at hfresh hnodup
                    have hcidacc : dictGet acc cid = none := hfresh cid (by simp)
                    have hcidrest : cid ∉ idsOfVals rest := (List.nodup_cons.mp hnodup).1
                    rw [dictSet_eq_append acc cid _ hcidacc] at h
                    have hfresh2 : ∀ x ∈ idsOfVals rest,
                        dictGet (acc ++
                          [(cid, dictSet (dictSet (dictSet c "user" lg) "body"
                            (Value.vStr (pyReplaceCRLF b))) "parent" (Value.vInt parent))])
                          x = none := by
                      intro x hx
                      have hxc : x ≠ cid := fun he => hcidrest (he ▸ hx)
                      rw [dictGet_append_right _ (hfresh x (by simp [hx]))]
                      simp [dictGet, Ne.symm hxc]
                    obtain ⟨ext2, he1, he2, he3⟩ :=
                      ih _ acc' h hfresh2 (List.nodup_cons.mp hnodup).2
                    refine ⟨(cid, dictSet (dictSet (dictSet c "user" lg) "body"
                        (Value.vStr (pyReplaceCRLF b))) "parent" (Value.vInt parent)) :: ext2,
                      ?_, ?_, ?_⟩
                    · rw [he1, List.append_assoc]; rfl
                    · rw [hids]; simp [he2]
                    · intro p hp
                      rcases List.mem_cons.mp hp with heq | htail
                      · subst heq; exact dictGet_set_self _ _ _
                      · exact he3 p htail
                  | vStr x => simp [process_replies_aux, hu, hl, hb, hid] at h
                  | vBool x => simp [process_replies_aux, hu, hl, hb, hid] at h
                  | vNull => simp [process_replies_aux, hu, hl, hb, hid] at h
                  | vList x => simp [process_replies_aux, hu, hl, hb, hid] at h
                  | vObj x => simp [process_replies_aux, hu, hl, hb, hid] at h
              | vInt x => simp [process_replies_aux, hu, hl, hb] at h
              | vBool x => simp [process_replies_aux, hu, hl, hb] at h
              | vNull => simp [process_replies_aux, hu, hl, hb] at h
              | vList x => simp [process_replies_aux, hu, hl, hb] at h
              | vObj x => simp [process_replies_aux, hu, hl, hb] at h
        | vInt x => simp [process_replies_aux, hu] at h
        | vStr x => simp [process_replies_aux, hu] at h
        | vBool x => simp [process_replies_aux, hu] at h
        | vNull => simp [process_replies_aux, hu] at h
        | vList x => simp [process_replies_aux, hu] at h
    | vInt x => simp [process_replies_aux] at h
    | vStr x => simp [process_replies_aux] at h
    | vBool x => simp [process_replies_aux] at h
    | vNull => simp [process_replies_aux] at h
    | vList x => simp [process_replies_aux] at h

/-- What one `_parse_comments` iteration adds to the flat collection
when it succeeds and the issue's id and reply ids are fresh and
mutually distinct: the reply records (keyed by the reply ids, each with
`parent` = the issue's id) followed by the issue record (keyed by the
issue's id, with `parent = 0` and `replies` = the reply-id list). -/
theorem process_issue_spec (flat : FlatMap) (mapping : PageIndex) (issue : Obj)
    (flat' : FlatMap) (mapping' : PageIndex)
    (h : process_issue flat mapping issue = some (flat', mapping'))
    (hfresh : ∀ x ∈ (issueIdOf issue).toList ++ replyIdsOf issue, dictGet flat x = none)
    (hnodup : ((issueIdOf issue).toList ++ replyIdsOf issue).Nodup) :
    ∃ (iid : Int) (ext : FlatMap) (irec : Obj),
      issueIdOf issue = some iid ∧
      flat' = flat ++ ext ++ [(iid, irec)] ∧
      ext.map Prod.fst = replyIdsOf issue ∧
      (∀ p ∈ ext, dictGet p.2 "parent" = some (Value.vInt iid)) ∧
      dictGet irec "parent" = some (Value.vInt 0) ∧
      dictGet irec "replies" = some (Value.vList ((replyIdsOf issue).map Value.vInt)) := by
  cases hu : dictGet issue "user" with
  | none => simp [process_issue, hu] at h
  | some uv =>
    cases uv with
    | vObj u =>
      cases hl : dictGet u "login" with
      | none => simp [process_issue, hu, hl] at h
      | some lg =>
        cases hbody : dictGet issue "body" with
        | none => simp [process_issue, hu, hl, hbody] at h
        | some bv =>
          cases bv with
          | vStr b =>
            cases hpc : parse_comment_body b with
            | none => simp [process_issue, hu, hl, hbody, hpc] at h
            | some pr =>
              obtain ⟨pp, bt⟩ := pr
              cases hid : dictGet issue "id" with
              | none => simp [process_issue, hu, hl, hbody, hpc, hid] at h
              | some idv =>
                cases idv with
                | vInt iid =>
                  cases hcom : dictGet issue "comments" with
                  | none => simp [process_issue, hu, hl, hbody, hpc, hid, hcom] at h
                  | some cv =>
                    cases cv with
                    | vList replies =>
                      cases hpr : process_replies replies iid with
                      | none =>
                        simp [process_issue, hu, hl, hbody, hpc, hid, hcom, hpr] at h
                      | some rdict =>
                        simp only [process_issue, hu, hl, hbody, hpc, hid, hcom, hpr] at h
                        simp only [Option.some.injEq, Prod.mk.injEq] at h
                        obtain ⟨hflat, _⟩ := h
                        have hiid : issueIdOf issue = some iid := by simp [issueIdOf, hid]
                        have hrids : replyIdsOf issue = idsOfVals replies := by
                          simp [replyIdsOf, hcom]
                        have hfresh' : ∀ x ∈ iid :: idsOfVals replies,
                            dictGet flat x = none := by
                          intro x hx
                          apply hfresh
                          rw [hiid, hrids]
                          simpa using hx
                        have hnodup' : (iid :: idsOfVals replies).Nodup := by
                          rw [hiid, hrids] at hnodup
                          simpa using hnodup
                        obtain ⟨ext, hext1, hext2, hext3⟩ :=
                          process_replies_aux_spec replies iid [] rdict hpr
                            (by intro x _; rfl) (List.nodup_cons.mp hnodup').2
                        have hext1' : rdict = ext := by simpa using hext1
                        subst hext1'
                        have hkeys : rdict.map Prod.fst = idsOfVals replies := hext2
                        have hkr : rdict.map Prod.fst = replyIdsOf issue :=
                          hkeys.trans hrids.symm
                        have hupd : dictUpdate flat rdict = flat ++ rdict :=
                          dictUpdate_eq_append rdict flat
                            (by
                              intro p hp
                              have hmemid : p.1 ∈ idsOfVals replies := by
                                rw [← hkeys]
                                exact List.mem_map_of_mem Prod.fst hp
                              exact hfresh' p.1 (by simp [hmemid]))
                            (by rw [hkeys]; exact (List.nodup_cons.mp hnodup').2)
                        have hiidflat : dictGet flat iid = none := hfresh' iid (by simp)
                        have hiidrd : dictGet rdict iid = none := by
                          rw [dictGet_eq_none_iff, hkeys]
                          exact (List.nodup_cons.mp hnodup').1
                        have hone : dictGet (flat ++ rdict) iid = none := by
                          rw [dictGet_append_right _ hiidflat]
                          exact hiidrd
                        rw [hupd, dictSet_eq_append _ _ _ hone] at hflat
                        refine ⟨iid, rdict,
                          dictSet (dictDel (dictSet (dictSet (dictSet
                            (dictSet issue "user" lg) "page" (Value.vStr pp))
                            "body" (Value.vStr bt)) "parent" (Value.vInt 0))
                            "comments") "replies"
                            (Value.vList ((rdict.map Prod.fst).map Value.vInt)),
                          hiid, hflat.symm, hkr, ?_, ?_, ?_⟩
                        · intro p hp; exact hext3 p hp
                        · rw [dictGet_set_ne _ "replies" "parent" _ (by decide)]
                          rw [dictGet_del_ne _ "comments" "parent" (by decide)]
                          exact dictGet_set_self _ _ _
                        · rw [dictGet_set_self, hkr]
                    | vInt x => simp [process_issue, hu, hl, hbody, hpc, hid, hcom] at h
                    | vStr x => simp [process_issue, hu, hl, hbody, hpc, hid, hcom] at h
                    | vBool x => simp [process_issue, hu, hl, hbody, hpc, hid, hcom] at h
                    | vNull => simp [process_issue, hu, hl, hbody, hpc, hid, hcom] at h
                    | vObj x => simp [process_issue, hu, hl, hbody, hpc, hid, hcom] at h
                | vStr x => simp [process_issue, hu, hl, hbody, hpc, hid] at h
                | vBool x => simp [process_issue, hu, hl, hbody, hpc, hid] at h
                | vNull => simp [process_issue, hu, hl, hbody, hpc, hid] at h
                | vList x => simp [process_issue, hu, hl, hbody, hpc, hid] at h
                | vObj x => simp [process_issue, hu, hl, hbody, hpc, hid] at h
          | vInt x => simp [process_issue, hu, hl, hbody] at h
          | vBool x => simp [process_issue, hu, hl, hbody] at h
          | vNull => simp [process_issue, hu, hl, hbody] at h
          | vList x => simp [process_issue, hu, hl, hbody] at h
          | vObj x => simp [process_issue, hu, hl, hbody] at h
    | vInt x => simp [process_issue, hu] at h
    | vStr x => simp [process_issue, hu] at h
    | vBool x => simp [process_issue, hu] at h
    | vNull => simp [process_issue, hu] at h
    | vList x => simp [process_issue, hu] at h

/-- The loop invariant of `_parse_comments`: starting from a flat
collection satisfying the integrity invariant, with all upcoming ids
fresh and mutually distinct, a successful run preserves the invariant,
preserves every existing entry, adds keys only from the processed ids,
and leaves every processed issue's record a thread root. -/
theorem parse_comments_aux_inv (issues : List Obj) :
    ∀ (flat : FlatMap) (mapping : PageIndex) (flat' : FlatMap) (mapping' : PageIndex),
      parse_comments_aux issues flat mapping = some (flat', mapping') →
      (∀ x ∈ allIds issues, dictGet flat x = none) →
      (allIds issues).Nodup →
      FlatInv flat →
      FlatInv flat' ∧
      (∀ k v, dictGet flat k = some v → dictGet flat' k = some v) ∧
      (∀ k, dictGet flat k = none → k ∉ allIds issues → dictGet flat' k = none) ∧
      (∀ i ∈ issues, ∀ n, issueIdOf i = some n →
        ∃ irec, dictGet flat' n = some irec ∧
          dictGet irec "parent" = some (Value.vInt 0)) := by
  induction issues with
  | nil =>
    intro flat mapping flat' mapping' h _ _ hinv
    simp [parse_comments_aux] at h
    obtain ⟨h1, _⟩ := h
    subst h1
    exact ⟨hinv, fun _ _ hv => hv, fun _ hk _ => hk, by simp⟩
  | cons i rest ih =>
    intro flat mapping flat' mapping' h hfresh hnodup hinv
    cases hpi : process_issue flat mapping i with
    | none => simp [parse_comments_aux, hpi] at h
    | some pr =>
      obtain ⟨flat1, m1⟩ := pr
      simp only [parse_comments_aux, hpi] at h
      set idsI := (issueIdOf i).toList ++ replyIdsOf i with hidsI
      have hall : allIds (i :: rest) = idsI ++ allIds rest := by
        rw [hidsI]
        simp [allIds, List.append_assoc]
      rw [hall] at hfresh hnodup
      have hfreshI : ∀ x ∈ idsI, dictGet flat x = none := fun x hx =>
        hfresh x (List.mem_append_left _ hx)
      have hnodupI : idsI.Nodup := (List.nodup_append.mp hnodup).1
      have hnodupR : (allIds rest).Nodup := (List.nodup_append.mp hnodup).2.1
      have hdisj : ∀ x ∈ idsI, x ∉ allIds rest := fun x hx hr =>
        (List.nodup_append.mp hnodup).2.2 hx hr
      obtain ⟨iid, ext, irec, hiid, hflat1, hkeys, hpar, hirec0, hirecr⟩ :=
        process_issue_spec flat mapping i flat1 m1 hpi hfreshI hnodupI
      have hiidI : iid ∈ idsI := by rw [hidsI, hiid]; simp
      have hsubI : ∀ x ∈ replyIdsOf i, x ∈ idsI := fun x hx => by
        rw [hidsI]; exact List.mem_append_right _ hx
      have hiidnotrep : iid ∉ replyIdsOf i := by
        have h1 : idsI.Nodup := hnodupI
        rw [hidsI, hiid] at h1
        simp only [Option.toList_some, List.singleton_append] at h1
        exact (List.nodup_cons.mp h1).1
      have hget_old : ∀ k v, dictGet flat k = some v → dictGet flat1 k = some v := by
        intro k v hv
        rw [hflat1]
        exact dictGet_append_left _ (dictGet_append_left _ hv)
      have hiidflat : dictGet flat iid = none := hfreshI iid hiidI
      have hiidext : dictGet ext iid = none := by
        rw [dictGet_eq_none_iff, hkeys]
        exact hiidnotrep
      have hflat1_iid : dictGet flat1 iid = some irec := by
        rw [hflat1, List.append_assoc]
        rw [dictGet_append_right _ hiidflat]
        rw [dictGet_append_right _ hiidext]
        simp [dictGet]
      have hinv1 : FlatInv flat1 := by
        intro k rec hk p hp hpne
        cases hflatk : dictGet flat k with
        | some v =>
          have hv1 : dictGet flat1 k = some v := hget_old k v hflatk
          have hvrec : v = rec := Option.some.inj (hv1.symm.trans hk)
          rw [← hvrec] at hp
          obtain ⟨ir0, hir0, hpar0, rl0, hrl0, hmem0⟩ := hinv k v hflatk p hp hpne
          exact ⟨ir0, hget_old p ir0 hir0, hpar0, rl0, hrl0, hmem0⟩
        | none =>
          have hk1 : dictGet (ext ++ [(iid, irec)]) k = some rec := by
            rw [hflat1, List.append_assoc] at hk
            rw [dictGet_append_right _ hflatk] at hk
            exact hk
          cases hextk : dictGet ext k with
          | some v =>
            rw [dictGet_append_left _ hextk] at hk1
            have hvrec : v = rec := Option.some.inj hk1
            have hvpar : dictGet v "parent" = some (Value.vInt iid) :=
              hpar (k, v) (dictGet_mem ext k v hextk)
            have hpiid : p = iid := by
              rw [← hvrec] at hp
              exact (Value.vInt.inj (Option.some.inj (hvpar.symm.trans hp))).symm
            subst hpiid
            refine ⟨irec, hflat1_iid, hirec0, (replyIdsOf i).map Value.vInt, hirecr, ?_⟩
            have hkmem : k ∈ replyIdsOf i := by
              by_contra hnk
              rw [← hkeys, ← dictGet_eq_none_iff ext k] at hnk
              exact absurd hextk (by simp [hnk])
            exact List.mem_map_of_mem Value.vInt hkmem
          | none =>
            rw [dictGet_append_right _ hextk] at hk1
            by_cases hkiid : iid = k
            · subst hkiid
              simp [dictGet] at hk1
              rw [← hk1] at hp
              exact absurd (Value.vInt.inj (Option.some.inj (hirec0.symm.trans hp))).symm hpne
            · simp [dictGet, hkiid] at hk1
      have hfreshR : ∀ x ∈ allIds rest, dictGet flat1 x = none := by
        intro x hx
        have hxflat : dictGet flat x = none := hfresh x (List.mem_append_right _ hx)
        have hxI : x ∉ idsI := fun hxI => hdisj x hxI hx
        have hxext : dictGet ext x = none := by
          rw [dictGet_eq_none_iff, hkeys]
          exact fun hm => hxI (hsubI x hm)
        have hxiid : ¬ iid = x := fun he => hxI (he ▸ hiidI)
        rw [hflat1, List.append_assoc, dictGet_append_right _ hxflat,
          dictGet_append_right _ hxext]
        simp [dictGet, hxiid]
      obtain ⟨hinv', hpres, hnone, hissues⟩ :=
        ih flat1 m1 flat' mapping' h hfreshR hnodupR hinv1
      refine ⟨hinv', ?_, ?_, ?_⟩
      · intro k v hv
        exact hpres k v (hget_old k v hv)
      · intro k hk hnk
        rw [hall] at hnk
        have hkI : k ∉ idsI := fun hkI => hnk (List.mem_append_left _ hkI)
        have hkR : k ∉ allIds rest := fun hkR => hnk (List.mem_append_right _ hkR)
        have h1 : dictGet flat1 k = none := by
          have hkext : dictGet ext k = none := by
            rw [dictGet_eq_none_iff, hkeys]
            exact fun hm => hkI (hsubI k hm)
          have hkiid : ¬ iid = k := fun he => hkI (he ▸ hiidI)
          rw [hflat1, List.append_assoc, dictGet_append_right _ hk,
            dictGet_append_right _ hkext]
          simp [dictGet, hkiid]
        exact hnone k h1 hkR
      · intro j hj n hn
        rcases List.mem_cons.mp hj with heq | htail
        · subst heq
          have hniid : n = iid := Option.some.inj (hn.symm.trans hiid)
          subst hniid
          exact ⟨irec, hpres _ _ hflat1_iid, hirec0⟩
        · exact hissues j htail n hn

/-- C4 (counterexample): with two issues sharing `id = 1` (the first
carrying reply 7, the second none), the second issue's record
overwrites the first's, so reply 7 keeps `parent = 1` while the record
stored under 1 has an empty `replies` list — the claimed invariant
fails on this run of the builder.  (The spec itself flags id collisions
as an unguarded latent defect.) -/
theorem c4_duplicate_id_counterexample :
    ¬ FlatInv (flatOf (parse_comments [c4IssueA, c4IssueB])) := by
  intro h
  obtain ⟨irec, hirec, hpar0, rl, hrl, hmem⟩ := h 7 _ rfl 1 rfl (by decide)
  have hB : dictGet (flatOf (parse_comments [c4IssueA, c4IssueB])) 1 =
      some [("id", Value.vInt 1), ("node_id", Value.vStr "I_2"),
            ("user", Value.vStr "alice"), ("body", Value.vStr "Second"),
            ("page", Value.vStr "faq"), ("parent", Value.vInt 0),
            ("replies", Value.vList [])] := rfl
  have hieq : irec = [("id", Value.vInt 1), ("node_id", Value.vStr "I_2"),
      ("user", Value.vStr "alice"), ("body", Value.vStr "Second"),
      ("page", Value.vStr "faq"), ("parent", Value.vInt 0),
      ("replies", Value.vList [])] := Option.some.inj (hirec.symm.trans hB)
  rw [hieq] at hrl
  have hB2 : dictGet [("id", Value.vInt 1), ("node_id", Value.vStr "I_2"),
      ("user", Value.vStr "alice"), ("body", Value.vStr "Second"),
      ("page", Value.vStr "faq"), ("parent", Value.vInt 0),
      ("replies", Value.vList [])] "replies" = some (Value.vList []) := rfl
  have hle : Value.vList [] = Value.vList rl := Option.some.inj (hB2.symm.trans hrl)
  have hrlnil : rl = [] := (Value.vList.inj hle).symm
  rw [hrlnil] at hmem
  simp at hmem

/-- C4 (amended: provided every id — issue ids and reply ids together —
is pairwise distinct, which the spec's invariant 1 assumes): in the
flat collection of a successful builder run, every record whose
`parent` is a non-zero `p` points to a thread-root record stored under
`p` whose `replies` list contains the record's key, and every input
issue's record is stored under its id with `parent = 0`. -/
theorem c4_parent_child_integrity_amended (issues : List Obj) (flat : FlatMap)
    (mapping : PageIndex)
    (hrun : parse_comments issues = some (flat, mapping))
    (hnodup : (allIds issues).Nodup) :
    FlatInv flat ∧
    ∀ i ∈ issues, ∀ n, issueIdOf i = some n →
      ∃ irec, dictGet flat n = some irec ∧
        dictGet irec "parent" = some (Value.vInt 0) := by
  have h := parse_comments_aux_inv issues [] [] flat mapping hrun
    (fun _ _ => rfl) hnodup (fun k rec hk => by simp [dictGet] at hk)
  exact ⟨h.1, h.2.2.2⟩

/-- C4 witness: the theorem applied to a one-issue thread (id 43,
replies 901 and 902, all ids distinct). -/
theorem c4_parent_child_integrity_witness :
    FlatInv (flatOf (parse_comments [c4WitnessIssue])) ∧
    (allIds [c4WitnessIssue]).Nodup :=
  ⟨(c4_parent_child_integrity_amended [c4WitnessIssue]
      (flatOf (parse_comments [c4WitnessIssue]))
      (mapOf (parse_comments [c4WitnessIssue])) rfl (by decide)).1,
   by decide⟩

/-! ## Claim C9 — heap lemmas: copies are fresh, mutations stay high -/

theorem copyOut_refl (h : Heap) (n : Nat) : CopyOut h n h n :=
  ⟨le_refl n, [], by simp, by simp⟩

theorem copyOut_trans {h : Heap} {n : Nat} {h1 : Heap} {n1 : Nat} {h2 : Heap} {n2 : Nat}
    (ha : CopyOut h n h1 n1) (hb : CopyOut h1 n1 h2 n2) : CopyOut h n h2 n2 := by
  obtain ⟨hn1, ext1, he1, hp1⟩ := ha
  obtain ⟨hn2, ext2, he2, hp2⟩ := hb
  refine ⟨le_trans hn1 hn2, ext1 ++ ext2, ?_, ?_⟩
  · rw [he2, he1, List.append_assoc]
  · intro p hp
    rcases List.mem_append.mp hp with hm | hm
    · exact hp1 p hm
    · obtain ⟨hpa, hpr⟩ := hp2 p hm
      exact ⟨le_trans hn1 hpa, fun r hr => le_trans hn1 (hpr r hr)⟩

theorem heapSetField_get_ne : ∀ (h : Heap) (a : Nat) (k : String) (v : HValue) (a' : Nat),
    a' ≠ a → dictGet (heapSetField h a k v) a' = dictGet h a'
  | [], _, _, _, _, _ => rfl
  | (b, o) :: rest, a, k, v, a', hne => by
    by_cases hb : b = a
    · subst hb
      simp [heapSetField, dictGet, Ne.symm hne,
        heapSetField_get_ne rest b k v a' hne]
    · simp [heapSetField, hb, dictGet,
        heapSetField_get_ne rest a k v a' hne]

theorem heapDelField_get_ne : ∀ (h : Heap) (a : Nat) (k : String) (a' : Nat),
    a' ≠ a → dictGet (heapDelField h a k) a' = dictGet h a'
  | [], _, _, _, _ => rfl
  | (b, o) :: rest, a, k, a', hne => by
    by_cases hb : b = a
    · subst hb
      simp [heapDelField, dictGet, Ne.symm hne,
        heapDelField_get_ne rest b k a' hne]
    · simp [heapDelField, hb, dictGet,
        heapDelField_get_ne rest a k a' hne]

theorem mem_heapSetField : ∀ (h : Heap) (a : Nat) (k : String) (v : HValue) (p : Nat × HObj),
    p ∈ heapSetField h a k v →
    ∃ q, q ∈ h ∧ (p = q ∨ (q.1 = a ∧ p = (q.1, dictSet q.2 k v)))
  | [], _, _, _, p, hmem => by simp [heapSetField] at hmem
  | (b, o) :: rest, a, k, v, p, hmem => by
    by_cases hb : b = a
    · subst hb
      simp only [heapSetField, if_pos rfl] at hmem
      rcases List.mem_cons.mp hmem with hm | hm
      · exact ⟨(b, o), by simp, Or.inr ⟨rfl, by simp [hm]⟩⟩
      · obtain ⟨q, hq, hc⟩ := mem_heapSetField rest b k v p hm
        exact ⟨q, by simp [hq], hc⟩
    · simp only [heapSetField, if_neg hb] at hmem
      rcases List.mem_cons.mp hmem with hm | hm
      · exact ⟨(b, o), by simp, Or.inl hm⟩
      · obtain ⟨q, hq, hc⟩ := mem_heapSetField rest a k v p hm
        exact ⟨q, by simp [hq], hc⟩

theorem mem_heapDelField : ∀ (h : Heap) (a : Nat) (k : String) (p : Nat × HObj),
    p ∈ heapDelField h a k →
    ∃ q, q ∈ h ∧ (p = q ∨ (q.1 = a ∧ p = (q.1, dictDel q.2 k)))
  | [], _, _, p, hmem => by simp [heapDelField] at hmem
  | (b, o) :: rest, a, k, p, hmem => by
    by_cases hb : b = a
    · subst hb
      simp only [heapDelField, if_pos rfl] at hmem
      rcases List.mem_cons.mp hmem with hm | hm
      · exact ⟨(b, o), by simp, Or.inr ⟨rfl, by simp [hm]⟩⟩
      · obtain ⟨q, hq, hc⟩ := mem_heapDelField rest b k p hm
        exact ⟨q, by simp [hq], hc⟩
    · simp only [heapDelField, if_neg hb] at hmem
      rcases List.mem_cons.mp hmem with hm | hm
      · exact ⟨(b, o), by simp, Or.inl hm⟩
      · obtain ⟨q, hq, hc⟩ := mem_heapDelField rest a k p hm
        exact ⟨q, by simp [hq], hc⟩

theorem refsInObj_dictSet_subset (k : String) (v : HValue) :
    ∀ (o : HObj) (r : Nat), r ∈ refsInObj (dictSet o k v) →
      r ∈ refsInObj o ∨ r ∈ refsIn v := by
  intro o
  induction o with
  | nil =>
    intro r h
    simp [dictSet, refsInObj] at h
    exact Or.inr h
  | cons p rest ih =>
    obtain ⟨k1, v1⟩ := p
    intro r h
    by_cases hk : k1 = k
    · subst hk
      simp [dictSet, refsInObj] at h
      simp [refsInObj]
      tauto
    · simp [dictSet, hk, refsInObj] at h
      simp [refsInObj]
      rcases h with h | h
      · tauto
      · rcases ih r h with h2 | h2 <;> tauto

theorem refsInObj_dictDel_subset (k : String) :
    ∀ (o : HObj) (r : Nat), r ∈ refsInObj (dictDel o k) → r ∈ refsInObj o := by
  intro o
  induction o with
  | nil => intro r h; simp [dictDel, refsInObj] at h
  | cons p rest ih =>
    obtain ⟨k1, v1⟩ := p
    intro r h
    by_cases hk : k1 = k
    · subst hk
      simp [dictDel] at h
      simp [refsInObj]
      tauto
    · simp [dictDel, hk, refsInObj] at h
      simp [refsInObj]
      rcases h with h | h
      · tauto
      · exact Or.inr (ih r h)

theorem refsInObj_of_field : ∀ (o : HObj) (k : String) (v : HValue) (r : Nat),
    (k, v) ∈ o → r ∈ refsIn v → r ∈ refsInObj o := by
  intro o
  induction o with
  | nil => intro k v r h _; simp at h
  | cons p rest ih =>
    intro k v r hmem hr
    rcases List.mem_cons.mp hmem with heq | htail
    · rw [← heq]
      exact List.mem_append_left _ hr
    · obtain ⟨pk, pv⟩ := p
      exact List.mem_append_right _ (ih k v r htail hr)

theorem refsIn_hList_map_hInt : ∀ (l : List Int),
    refsIn (HValue.hList (l.map HValue.hInt)) = []
  | [] => by simp [refsIn]
  | x :: rest => by simp [refsIn, refsIn_hList_map_hInt rest]

theorem lowUnchanged_trans {n : Nat} {h1 h2 h3 : Heap}
    (ha : LowUnchanged n h1 h2) (hb : LowUnchanged n h2 h3) : LowUnchanged n h1 h3 :=
  fun a hx => (hb a hx).trans (ha a hx)

theorem lowUnchanged_setField (n : Nat) (h : Heap) (a : Nat) (k : String) (v : HValue)
    (ha : n ≤ a) : LowUnchanged n h (heapSetField h a k v) := by
  intro x hx
  exact heapSetField_get_ne h a k v x (fun he => absurd (he ▸ hx) (not_lt.mpr ha))

theorem lowUnchanged_delField (n : Nat) (h : Heap) (a : Nat) (k : String)
    (ha : n ≤ a) : LowUnchanged n h (heapDelField h a k) := by
  intro x hx
  exact heapDelField_get_ne h a k x (fun he => absurd (he ▸ hx) (not_lt.mpr ha))

theorem highRefs_setField (n : Nat) (h : Heap) (a : Nat) (k : String) (v : HValue)
    (hh : HighRefs n h) (hv : ∀ r ∈ refsIn v, n ≤ r) :
    HighRefs n (heapSetField h a k v) := by
  intro p hp hpa r hr
  obtain ⟨q, hq, hc⟩ := mem_heapSetField h a k v p hp
  rcases hc with heq | ⟨hqa, heq⟩
  · rw [heq] at hpa hr
    exact hh q hq hpa r hr
  · rw [heq] at hr hpa
    rcases refsInObj_dictSet_subset k v q.2 r hr with h2 | h2
    · exact hh q hq hpa r h2
    · exact hv r h2

theorem highRefs_delField (n : Nat) (h : Heap) (a : Nat) (k : String)
    (hh : HighRefs n h) : HighRefs n (heapDelField h a k) := by
  intro p hp hpa r hr
  obtain ⟨q, hq, hc⟩ := mem_heapDelField h a k p hp
  rcases hc with heq | ⟨hqa, heq⟩
  · rw [heq] at hpa hr
    exact hh q hq hpa r hr
  · rw [heq] at hr hpa
    exact hh q hq hpa r (refsInObj_dictDel_subset k q.2 r hr)

/-- The deep copy only appends fresh objects to the heap, and every
reference in the copied value (and inside the appended objects) points
at a fresh address. -/
theorem deepcopy_spec : ∀ (fuel : Nat),
    (∀ (h : Heap) (n : Nat) (v : HValue) (h' : Heap) (n' : Nat) (v' : HValue),
      deepcopyVal fuel h n v = some (h', n', v') →
      CopyOut h n h' n' ∧ ∀ r ∈ refsIn v', n ≤ r) ∧
    (∀ (h : Heap) (n : Nat) (l : List HValue) (h' : Heap) (n' : Nat) (l' : List HValue),
      deepcopyList fuel h n l = some (h', n', l') →
      CopyOut h n h' n' ∧ ∀ r ∈ refsIn (HValue.hList l'), n ≤ r) ∧
    (∀ (h : Heap) (n : Nat) (o : HObj) (h' : Heap) (n' : Nat) (o' : HObj),
      deepcopyObj fuel h n o = some (h', n', o') →
      CopyOut h n h' n' ∧ ∀ r ∈ refsInObj o', n ≤ r) := by
  intro fuel
  induction fuel with
  | zero =>
    refine ⟨?_, ?_, ?_⟩ <;> intro h n x h' n' x' hrun <;>
      simp [deepcopyVal, deepcopyList, deepcopyObj] at hrun
  | succ m ih =>
    obtain ⟨ihV, ihL, ihO⟩ := ih
    refine ⟨?_, ?_, ?_⟩
    · intro h n v h' n' v' hrun
      cases v with
      | hInt i =>
        simp [deepcopyVal] at hrun
        obtain ⟨e1, e2, e3⟩ := hrun
        subst e1; subst e2; subst e3
        exact ⟨copyOut_refl h n, by intro r hr; simp [refsIn] at hr⟩
      | hStr s =>
        simp [deepcopyVal] at hrun
        obtain ⟨e1, e2, e3⟩ := hrun
        subst e1; subst e2; subst e3
        exact ⟨copyOut_refl h n, by intro r hr; simp [refsIn] at hr⟩
      | hBool b =>
        simp [deepcopyVal] at hrun
        obtain ⟨e1, e2, e3⟩ := hrun
        subst e1; subst e2; subst e3
        exact ⟨copyOut_refl h n, by intro r hr; simp [refsIn] at hr⟩
      | hNull =>
        simp [deepcopyVal] at hrun
        obtain ⟨e1, e2, e3⟩ := hrun
        subst e1; subst e2; subst e3
        exact ⟨copyOut_refl h n, by intro r hr; simp [refsIn] at hr⟩
      | hList l =>
        cases hc : deepcopyList m h n l with
        | none => simp [deepcopyVal, hc] at hrun
        | some tr =>
          obtain ⟨h1, n1, l1⟩ := tr
          simp [deepcopyVal, hc] at hrun
          obtain ⟨e1, e2, e3⟩ := hrun
          subst e1; subst e2; subst e3
          exact ihL h n l h1 n1 l1 hc
      | hRef a =>
        cases hg : dictGet h a with
        | none => simp [deepcopyVal, hg] at hrun
        | some o =>
          cases hc : deepcopyObj m h n o with
          | none => simp [deepcopyVal, hg, hc] at hrun
          | some tr =>
            obtain ⟨h1, n1, o1⟩ := tr
            simp [deepcopyVal, hg, hc] at hrun
            obtain ⟨e1, e2, e3⟩ := hrun
            obtain ⟨hco, horefs⟩ := ihO h n o h1 n1 o1 hc
            obtain ⟨hn, ext, hext, hprop⟩ := hco
            refine ⟨⟨?_, ext ++ [(n1, o1)], ?_, ?_⟩, ?_⟩
            · rw [← e2]
              exact le_trans hn (Nat.le_succ n1)
            · rw [← e1, hext, List.append_assoc]
            · intro p hp
              rcases List.mem_append.mp hp with hm | hm
              · exact hprop p hm
              · simp at hm
                rw [hm]
                exact ⟨hn, fun r hr => horefs r hr⟩
            · intro r hr
              rw [← e3] at hr
              simp [refsIn] at hr
              rw [hr]
              exact hn
    · intro h n l h' n' l' hrun
      cases l with
      | nil =>
        simp [deepcopyList] at hrun
        obtain ⟨e1, e2, e3⟩ := hrun
        subst e1; subst e2; subst e3
        exact ⟨copyOut_refl h n, by intro r hr; simp [refsIn] at hr⟩
      | cons v rest =>
        cases hc1 : deepcopyVal m h n v with
        | none => simp [deepcopyList, hc1] at hrun
        | some tr1 =>
          obtain ⟨h1, n1, v1⟩ := tr1
          cases hc2 : deepcopyList m h1 n1 rest with
          | none => simp [deepcopyList, hc1, hc2] at hrun
          | some tr2 =>
            obtain ⟨h2, n2, rest2⟩ := tr2
            simp [deepcopyList, hc1, hc2] at hrun
            obtain ⟨e1, e2, e3⟩ := hrun
            obtain ⟨hco1, hrefs1⟩ := ihV h n v h1 n1 v1 hc1
            obtain ⟨hco2, hrefs2⟩ := ihL h1 n1 rest h2 n2 rest2 hc2
            subst e1; subst e2
            refine ⟨copyOut_trans hco1 hco2, ?_⟩
            intro r hr
            rw [← e3] at hr
            simp [refsIn] at hr
            rcases hr with hr | hr
            · exact hrefs1 r hr
            · exact le_trans hco1.1 (hrefs2 r hr)
    · intro h n o h' n' o' hrun
      cases o with
      | nil =>
        simp [deepcopyObj] at hrun
        obtain ⟨e1, e2, e3⟩ := hrun
        subst e1; subst e2; subst e3
        exact ⟨copyOut_refl h n, by intro r hr; simp [refsInObj] at hr⟩
      | cons p rest =>
        obtain ⟨k, v⟩ := p
        cases hc1 : deepcopyVal m h n v with
        | none => simp [deepcopyObj, hc1] at hrun
        | some tr1 =>
          obtain ⟨h1, n1, v1⟩ := tr1
          cases hc2 : deepcopyObj m h1 n1 rest with
          | none => simp [deepcopyObj, hc1, hc2] at hrun
          | some tr2 =>
            obtain ⟨h2, n2, rest2⟩ := tr2
            simp [deepcopyObj, hc1, hc2] at hrun
            obtain ⟨e1, e2, e3⟩ := hrun
            obtain ⟨hco1, hrefs1⟩ := ihV h n v h1 n1 v1 hc1
            obtain ⟨hco2, hrefs2⟩ := ihO h1 n1 rest h2 n2 rest2 hc2
            subst e1; subst e2
            refine ⟨copyOut_trans hco1 hco2, ?_⟩
            intro r hr
            rw [← e3] at hr
            simp [refsInObj] at hr
            rcases hr with hr | hr
            · exact hrefs1 r hr
            · exact le_trans hco1.1 (hrefs2 r hr)

/-- `_process_replies` against the heap mutates only high addresses:
addresses below `n` keep their objects, and the high-references
invariant is preserved. -/
theorem process_replies_heap_frame (l : List HValue) :
    ∀ (h : Heap) (parent : Int) (acc acc' : List (Int × Nat)) (h' : Heap) (n : Nat),
      process_replies_heap h l parent acc = some (h', acc') →
      HighRefs n h →
      (∀ r ∈ refsIn (HValue.hList l), n ≤ r) →
      LowUnchanged n h h' ∧ HighRefs n h' := by
  induction l with
  | nil =>
    intro h parent acc acc' h' n hrun hh _
    simp [process_replies_heap] at hrun
    rw [← hrun.1]
    exact ⟨fun _ _ => rfl, hh⟩
  | cons v rest ih =>
    intro h parent acc acc' h' n hrun hh hrefs
    cases v with
    | hRef ca =>
      have hca : n ≤ ca := hrefs ca (by simp [refsIn])
      have hrefsrest : ∀ r ∈ refsIn (HValue.hList rest), n ≤ r := by
        intro r hr
        refine hrefs r ?_
        simp [refsIn]
        exact Or.inr hr
      cases hc : dictGet h ca with
      | none => simp [process_replies_heap, hc] at hrun
      | some c =>
        have hcrefs : ∀ r ∈ refsInObj c, n ≤ r :=
          hh (ca, c) (dictGet_mem h ca c hc) hca
        cases hu : dictGet c "user" with
        | none => simp [process_replies_heap, hc, hu] at hrun
        | some uv =>
          cases uv with
          | hRef ua =>
            have hua : n ≤ ua := hcrefs ua
              (refsInObj_of_field c "user" (HValue.hRef ua) ua
                (dictGet_mem c "user" _ hu) (by simp [refsIn]))
            cases huo : dictGet h ua with
            | none => simp [process_replies_heap, hc, hu, huo] at hrun
            | some uo =>
              have huorefs : ∀ r ∈ refsInObj uo, n ≤ r :=
                hh (ua, uo) (dictGet_mem h ua uo huo) hua
              cases hlg : dictGet uo "login" with
              | none => simp [process_replies_heap, hc, hu, huo, hlg] at hrun
              | some lg =>
                have hlgrefs : ∀ r ∈ refsIn lg, n ≤ r := fun r hr =>
                  huorefs r (refsInObj_of_field uo "login" lg r
                    (dictGet_mem uo "login" lg hlg) hr)
                cases hb : dictGet c "body" with
                | none => simp [process_replies_heap, hc, hu, huo, hlg, hb] at hrun
                | some bv =>
                  cases bv with
                  | hStr b =>
                    cases hid : dictGet c "id" with
                    | none =>
                      simp [process_replies_heap, hc, hu, huo, hlg, hb, hid] at hrun
                    | some idv =>
                      cases idv with
                      | hInt cid =>
                        simp only [process_replies_heap, hc, hu, huo, hlg, hb, hid] at hrun
                        have hh1 : HighRefs n (heapSetField h ca "user" lg) :=
                          highRefs_setField n h ca "user" lg hh hlgrefs
                        have hh2 : HighRefs n (heapSetField (heapSetField h ca "user" lg)
                            ca "body" (HValue.hStr (pyReplaceCRLF b))) :=
                          highRefs_setField n _ ca "body" _ hh1
                            (by intro r hr; simp [refsIn] at hr)
                        have hh3 : HighRefs n (heapSetField (heapSetField
                            (heapSetField h ca "user" lg) ca "body"
                            (HValue.hStr (pyReplaceCRLF b))) ca "parent"
                            (HValue.hInt parent)) :=
                          highRefs_setField n _ ca "parent" _ hh2
                            (by intro r hr; simp [refsIn] at hr)
                        obtain ⟨hlow, hhout⟩ := ih _ parent _ acc' h' n hrun hh3 hrefsrest
                        refine ⟨?_, hhout⟩
                        exact lowUnchanged_trans (lowUnchanged_setField n h ca "user" lg hca)
                          (lowUnchanged_trans (lowUnchanged_setField n _ ca "body" _ hca)
                            (lowUnchanged_trans (lowUnchanged_setField n _ ca "parent" _ hca)
                              hlow))
                      | hStr x =>
                        simp [process_replies_heap, hc, hu, huo, hlg, hb, hid] at hrun
                      | hBool x =>
                        simp [process_replies_heap, hc, hu, huo, hlg, hb, hid] at hrun
                      | hNull =>
                        simp [process_replies_heap, hc, hu, huo, hlg, hb, hid] at hrun
                      | hList x =>
                        simp [process_replies_heap, hc, hu, huo, hlg, hb, hid] at hrun
                      | hRef x =>
                        simp [process_replies_heap, hc, hu, huo, hlg, hb, hid] at hrun
                  | hInt x => simp [process_replies_heap, hc, hu, huo, hlg, hb] at hrun
                  | hBool x => simp [process_replies_heap, hc, hu, huo, hlg, hb] at hrun
                  | hNull => simp [process_replies_heap, hc, hu, huo, hlg, hb] at hrun
                  | hList x => simp [process_replies_heap, hc, hu, huo, hlg, hb] at hrun
                  | hRef x => simp [process_replies_heap, hc, hu, huo, hlg, hb] at hrun
          | hInt x => simp [process_replies_heap, hc, hu] at hrun
          | hStr x => simp [process_replies_heap, hc, hu] at hrun
          | hBool x => simp [process_replies_heap, hc, hu] at hrun
          | hNull => simp [process_replies_heap, hc, hu] at hrun
          | hList x => simp [process_replies_heap, hc, hu] at hrun
    | hInt x => simp [process_replies_heap] at hrun
    | hStr x => simp [process_replies_heap] at hrun
    | hBool x => simp [process_replies_heap] at hrun
    | hNull => simp [process_replies_heap] at hrun
    | hList x => simp [process_replies_heap] at hrun

/-- One `_parse_comments` iteration against the heap mutates only high
addresses. -/
theorem process_issue_heap_frame (h : Heap) (flat : List (Int × Nat))
    (mapping : PageIndex) (a : Nat) (h' : Heap) (flat' : List (Int × Nat))
    (mapping' : PageIndex) (n : Nat)
    (hrun : process_issue_heap h flat mapping a = some (h', flat', mapping'))
    (hh : HighRefs n h) (ha : n ≤ a) :
    LowUnchanged n h h' ∧ HighRefs n h' := by
  cases ho : dictGet h a with
  | none => simp [process_issue_heap, ho] at hrun
  | some o =>
    have horefs : ∀ r ∈ refsInObj o, n ≤ r := hh (a, o) (dictGet_mem h a o ho) ha
    cases hu : dictGet o "user" with
    | none => simp [process_issue_heap, ho, hu] at hrun
    | some uv =>
      cases uv with
      | hRef ua =>
        have hua : n ≤ ua := horefs ua (refsInObj_of_field o "user" _ ua
          (dictGet_mem o "user" _ hu) (by simp [refsIn]))
        cases huo : dictGet h ua with
        | none => simp [process_issue_heap, ho, hu, huo] at hrun
        | some uo =>
          have huorefs : ∀ r ∈ refsInObj uo, n ≤ r :=
            hh (ua, uo) (dictGet_mem h ua uo huo) hua
          cases hlg : dictGet uo "login" with
          | none => simp [process_issue_heap, ho, hu, huo, hlg] at hrun
          | some lg =>
            have hlgrefs : ∀ r ∈ refsIn lg, n ≤ r := fun r hr =>
              huorefs r (refsInObj_of_field uo "login" lg r
                (dictGet_mem uo "login" lg hlg) hr)
            cases hb : dictGet o "body" with
            | none => simp [process_issue_heap, ho, hu, huo, hlg, hb] at hrun
            | some bv =>
              cases bv with
              | hStr b =>
                cases hpc : parse_comment_body b with
                | none => simp [process_issue_heap, ho, hu, huo, hlg, hb, hpc] at hrun
                | some pr =>
                  obtain ⟨pp, bt⟩ := pr
                  cases hid : dictGet o "id" with
                  | none =>
                    simp [process_issue_heap, ho, hu, huo, hlg, hb, hpc, hid] at hrun
                  | some idv =>
                    cases idv with
                    | hInt iid =>
                      cases hcom : dictGet o "comments" with
                      | none =>
                        simp [process_issue_heap, ho, hu, huo, hlg, hb, hpc, hid, hcom] at hrun
                      | some cv =>
                        cases cv with
                        | hList reps =>
                          have hrepsrefs : ∀ r ∈ refsIn (HValue.hList reps), n ≤ r :=
                            fun r hr => horefs r (refsInObj_of_field o "comments" _ r
                              (dictGet_mem o "comments" _ hcom) hr)
                          have hh1 := highRefs_setField n h a "user" lg hh hlgrefs
                          have hh2 := highRefs_setField n _ a "page" (HValue.hStr pp) hh1
                            (by intro r hr; simp [refsIn] at hr)
                          have hh3 := highRefs_setField n _ a "body" (HValue.hStr bt) hh2
                            (by intro r hr; simp [refsIn] at hr)
                          have hh4 := highRefs_setField n _ a "parent" (HValue.hInt 0) hh3
                            (by intro r hr; simp [refsIn] at hr)
                          have hh5 := highRefs_delField n _ a "comments" hh4
                          cases hpr : process_replies_heap
                              (heapDelField (heapSetField (heapSetField (heapSetField
                                (heapSetField h a "user" lg) a "page" (HValue.hStr pp))
                                a "body" (HValue.hStr bt)) a "parent" (HValue.hInt 0))
                                a "comments") reps iid [] with
                          | none =>
                            simp [process_issue_heap, ho, hu, huo, hlg, hb, hpc, hid,
                              hcom, hpr] at hrun
                          | some pr6 =>
                            obtain ⟨h6, rdict⟩ := pr6
                            simp only [process_issue_heap, ho, hu, huo, hlg, hb, hpc,
                              hid, hcom, hpr] at hrun
                            obtain ⟨hlow6, hh6⟩ := process_replies_heap_frame reps _
                              iid [] rdict h6 n hpr hh5 hrepsrefs
                            have hh7 := highRefs_setField n h6 a "replies"
                              (HValue.hList ((rdict.map Prod.fst).map HValue.hInt)) hh6
                              (by intro r hr; rw [refsIn_hList_map_hInt] at hr; simp at hr)
                            simp only [Option.some.injEq, Prod.mk.injEq] at hrun
                            obtain ⟨e1, _, _⟩ := hrun
                            rw [← e1]
                            refine ⟨?_, hh7⟩
                            exact lowUnchanged_trans (lowUnchanged_setField n h a "user" lg ha)
                              (lowUnchanged_trans (lowUnchanged_setField n _ a "page" _ ha)
                                (lowUnchanged_trans (lowUnchanged_setField n _ a "body" _ ha)
                                  (lowUnchanged_trans (lowUnchanged_setField n _ a "parent" _ ha)
                                    (lowUnchanged_trans (lowUnchanged_delField n _ a "comments" ha)
                                      (lowUnchanged_trans hlow6
                                        (lowUnchanged_setField n h6 a "replies" _ ha))))))
                        | hInt x =>
                          simp [process_issue_heap, ho, hu, huo, hlg, hb, hpc, hid, hcom] at hrun
                        | hStr x =>
                          simp [process_issue_heap, ho, hu, huo, hlg, hb, hpc, hid, hcom] at hrun
                        | hBool x =>
                          simp [process_issue_heap, ho, hu, huo, hlg, hb, hpc, hid, hcom] at hrun
                        | hNull =>
                          simp [process_issue_heap, ho, hu, huo, hlg, hb, hpc, hid, hcom] at hrun
                        | hRef x =>
                          simp [process_issue_heap, ho, hu, huo, hlg, hb, hpc, hid, hcom] at hrun
                    | hStr x =>
                      simp [process_issue_heap, ho, hu, huo, hlg, hb, hpc, hid] at hrun
                    | hBool x =>
                      simp [process_issue_heap, ho, hu, huo, hlg, hb, hpc, hid] at hrun
                    | hNull =>
                      simp [process_issue_heap, ho, hu, huo, hlg, hb, hpc, hid] at hrun
                    | hList x =>
                      simp [process_issue_heap, ho, hu, huo, hlg, hb, hpc, hid] at hrun
                    | hRef x =>
                      simp [process_issue_heap, ho, hu, huo, hlg, hb, hpc, hid] at hrun
              | hInt x => simp [process_issue_heap, ho, hu, huo, hlg, hb] at hrun
              | hBool x => simp [process_issue_heap, ho, hu, huo, hlg, hb] at hrun
              | hNull => simp [process_issue_heap, ho, hu, huo, hlg, hb] at hrun
              | hList x => simp [process_issue_heap, ho, hu, huo, hlg, hb] at hrun
              | hRef x => simp [process_issue_heap, ho, hu, huo, hlg, hb] at hrun
      | hInt x => simp [process_issue_heap, ho, hu] at hrun
      | hStr x => simp [process_issue_heap, ho, hu] at hrun
      | hBool x => simp [process_issue_heap, ho, hu] at hrun
      | hNull => simp [process_issue_heap, ho, hu] at hrun
      | hList x => simp [process_issue_heap, ho, hu] at hrun

/-- The whole builder loop against the heap mutates only high
addresses. -/
theorem process_all_heap_frame (l : List HValue) :
    ∀ (h : Heap) (flat : List (Int × Nat)) (mapping : PageIndex) (h' : Heap)
      (flat' : List (Int × Nat)) (mapping' : PageIndex) (n : Nat),
      process_all_heap h l flat mapping = some (h', flat', mapping') →
      HighRefs n h →
      (∀ r ∈ refsIn (HValue.hList l), n ≤ r) →
      LowUnchanged n h h' ∧ HighRefs n h' := by
  induction l with
  | nil =>
    intro h flat mapping h' flat' mapping' n hrun hh _
    simp [process_all_heap] at hrun
    rw [← hrun.1]
    exact ⟨fun _ _ => rfl, hh⟩
  | cons v rest ih =>
    intro h flat mapping h' flat' mapping' n hrun hh hrefs
    cases v with
    | hRef a =>
      have haa : n ≤ a := hrefs a (by simp [refsIn])
      have hrefsrest : ∀ r ∈ refsIn (HValue.hList rest), n ≤ r := by
        intro r hr
        refine hrefs r ?_
        simp [refsIn]
        exact Or.inr hr
      cases hpi : process_issue_heap h flat mapping a with
      | none => simp [process_all_heap, hpi] at hrun
      | some tr =>
        obtain ⟨h1, flat1, m1⟩ := tr
        simp only [process_all_heap, hpi] at hrun
        obtain ⟨hlow1, hh1⟩ :=
          process_issue_heap_frame h flat mapping a h1 flat1 m1 n hpi hh haa
        obtain ⟨hlow2, hh2⟩ := ih h1 flat1 m1 h' flat' mapping' n hrun hh1 hrefsrest
        exact ⟨lowUnchanged_trans hlow1 hlow2, hh2⟩
    | hInt x => simp [process_all_heap] at hrun
    | hStr x => simp [process_all_heap] at hrun
    | hBool x => simp [process_all_heap] at hrun
    | hNull => simp [process_all_heap] at hrun
    | hList x => simp [process_all_heap] at hrun

/-- C9: `_parse_comments` never mutates the caller's records.  For any
heap whose addresses all lie below `n` and any successful run of the
heap builder (which first deep-copies the issue graph to fresh
addresses from `n` on, then mutates only the copies), every original
address still maps to exactly its original object afterwards. -/
theorem c9_deepcopy_frame (fuel : Nat) (h : Heap) (n : Nat) (issues : List HValue)
    (h' : Heap) (flat : List (Int × Nat)) (mapping : PageIndex)
    (hbound : ∀ a ∈ h.map Prod.fst, a < n)
    (hrun : parse_comments_heap fuel h n issues = some (h', flat, mapping)) :
    ∀ a, a < n → dictGet h' a = dictGet h a := by
  cases hdc : deepcopyList fuel h n issues with
  | none => simp [parse_comments_heap, hdc] at hrun
  | some tr =>
    obtain ⟨h1, n1, copies⟩ := tr
    simp only [parse_comments_heap, hdc] at hrun
    obtain ⟨hco, hcrefs⟩ := (deepcopy_spec fuel).2.1 h n issues h1 n1 copies hdc
    obtain ⟨hn1, ext, hext, hprop⟩ := hco
    have hh1 : HighRefs n h1 := by
      intro p hp hpa r hr
      rw [hext] at hp
      rcases List.mem_append.mp hp with hm | hm
      · exact absurd hpa (not_le.mpr (hbound p.1 (List.mem_map_of_mem Prod.fst hm)))
      · exact (hprop p hm).2 r hr
    obtain ⟨hlow, _⟩ :=
      process_all_heap_frame copies h1 [] [] h' flat mapping n hrun hh1 hcrefs
    intro a halt
    rw [hlow a halt, hext]
    cases hga : dictGet h a with
    | some v => exact dictGet_append_left _ hga
    | none =>
      rw [dictGet_append_right _ hga, dictGet_eq_none_iff]
      intro hmem
      obtain ⟨p, hp, hfst⟩ := List.mem_map.mp hmem
      have hge := (hprop p hp).1
      rw [hfst] at hge
      exact absurd halt (not_lt.mpr hge)

/-- C9 witness: the theorem applied to the three-object heap `c9Heap`
(issue, user, reply): after the builder runs, addresses 0, 1 and 2
still hold their original objects (the copies were mutated instead). -/
theorem c9_deepcopy_frame_witness :
    dictGet c9HeapOut 0 = dictGet c9Heap 0 ∧
    dictGet c9HeapOut 1 = dictGet c9Heap 1 ∧
    dictGet c9HeapOut 2 = dictGet c9Heap 2 := by
  have h := c9_deepcopy_frame 20 c9Heap 3 [HValue.hRef 0] c9HeapOut c9FlatOut c9MapOut
    (by intro a ha; simp [c9Heap] at ha; rcases ha with h | h | h <;> omega) rfl
  exact ⟨h 0 (by decide), h 1 (by decide), h 2 (by decide)⟩

end Convo
